import Mathlib

/-!
Verification development for the workbook-RAG content-search server
(`mcp-servers/workbook-rag/server.py`): a shallow embedding of its
extraction, caching, corpus-loading, relevance-ranking, context-chunking
and grep components, together with theorems about the embedded code.

Modelling conventions:
* Python strings are `List Char`; Python string comparison is code-point
  lexicographic, modelled by `strLtB`/`strLeB`.
* Character classes (`\w`, `\s`, `str.lower`) are modelled for ASCII text,
  which is the alphabet the server's queries and patterns use.
* Python's stable `list.sort(key=...)` is modelled by `List.insertionSort`
  with the corresponding total preorder (any two stable sorts agree).
* The CPython `re` engine is not modelled in general: where the code
  compiles an arbitrary user regex, the compiled matcher is a function
  parameter (`finditer`); for the one concrete pattern the claims need
  ("foo.bar"), the engine's behaviour is modelled exactly
  (leftmost, non-overlapping, `.` matches anything except a newline,
  IGNORECASE folds ASCII case).
-/

namespace WorkbookRag

/-- Convert a Lean string literal to the `List Char` representation used
throughout this development. -/
def lit (s : String) : List Char := s.toList

/-- ASCII model of Python `str.lower` applied to one character. -/
def asciiLower (c : Char) : Char :=
  if 'A' ≤ c ∧ c ≤ 'Z' then Char.ofNat (c.toNat + 32) else c

/-- ASCII model of Python `str.lower`. -/
def lowerStr (s : List Char) : List Char := s.map asciiLower

/-- ASCII model of the regex class `\w` (letters, digits, underscore). -/
def isWordChar (c : Char) : Bool := c.isAlphanum || c = '_'

/-- ASCII model of Python whitespace (`\s`, and the separators used by
`str.split()` with no argument). -/
def isSpaceChar (c : Char) : Bool :=
  c = ' ' || c = '\t' || c = '\n' || c = '\r' || c = '\x0b' || c = '\x0c'

/-- `occursAtB hay pat i` holds when `pat` occurs in `hay` starting at
offset `i` (the primitive behind Python `in`, `str.find`, `str.startswith`
at an offset). -/
def occursAtB (hay pat : List Char) (i : Nat) : Bool :=
  (hay.drop i).take pat.length == pat

/-- Model of Python `pat in hay` (substring containment). -/
def containsSub (hay pat : List Char) : Bool :=
  (List.range (hay.length + 1)).any (occursAtB hay pat)

/-- Distance between two natural numbers, the model of Python
`abs(a - b)` on the int positions the chunker compares. -/
def natDist (a b : Nat) : Nat := max a b - min a b

/-- Linear scan behind `strFind`: try offsets `i, i+1, ...` while fuel
lasts, returning the first occurrence. -/
def strFindGo (hay pat : List Char) : Nat → Nat → Option Nat
  | _, 0 => none
  | i, fuel + 1 =>
    if occursAtB hay pat i then some i else strFindGo hay pat (i + 1) fuel

/-- Model of Python `hay.find(pat, start)` (the least occurrence offset at
or after `start`, `none` standing for Python's `-1`). -/
def strFind (hay pat : List Char) (start : Nat) : Option Nat :=
  strFindGo hay pat start (hay.length + 1 - start)

/-- Model of Python `sep.join(parts)`. -/
def joinSep (sep : List Char) : List (List Char) → List Char
  | [] => []
  | [p] => p
  | p :: ps => p ++ sep ++ joinSep sep ps

/-- One step-by-one scan of a fixed-width matcher, the model of CPython
`re.finditer` for a pattern whose every match has width `w`: positions are
tried left to right, and after a match the scan resumes at its end
(matches are non-overlapping). `m` is the "does a match start here"
predicate, `len` the subject length. -/
def goFinditer (m : Nat → Bool) (len w : Nat) : Nat → Nat → List Nat
  | _, 0 => []
  | i, fuel + 1 =>
    if i > len then []
    else if m i then i :: goFinditer m len w (i + w) fuel
    else goFinditer m len w (i + 1) fuel

/-- All match starts of a fixed-width matcher, scanning the whole subject. -/
def finditerFixed (m : Nat → Bool) (len w : Nat) : List Nat :=
  goFinditer m len w 0 (len + 1)

/-- The literal-substring loop of `_iter_grep_matches` (server.py:456-471):
repeatedly `find` the needle, record `(start, end)`, continue at `end`,
stopping at `max_matches` (`rem` counts the remaining allowance). -/
def litScanGo (hay nee : List Char) : Nat → Nat → Nat → List (Nat × Nat)
  | _, _, 0 => []
  | _, 0, _ => []
  | i, rem + 1, fuel + 1 =>
    match strFind hay nee i with
    | none => []
    | some idx => (idx, idx + nee.length) :: litScanGo hay nee (idx + nee.length) rem fuel

/-- Literal match scan with the `max_matches` cap, from
`_iter_grep_matches` (regex=False branch). -/
def litScan (hay nee : List Char) (maxMatches : Nat) : List (Nat × Nat) :=
  litScanGo hay nee 0 maxMatches (hay.length + 1)

/-- One grep match as reported by `_iter_grep_matches`: offsets, 1-based
line/column, and a radius-80 snippet. `stop` is the Python `end` field. -/
structure GrepMatch where
  start : Nat
  stop : Nat
  line : Nat
  col : Nat
  snippet : List Char
deriving DecidableEq

/-- Offsets at which lines start (server.py:479-482): offset 0 plus one
offset after every newline. -/
def lineStartsGo : List Char → Nat → List Nat
  | [], _ => []
  | c :: cs, idx =>
    (if c = '\n' then [idx + 1] else []) ++ lineStartsGo cs (idx + 1)

/-- `line_starts` of `_iter_grep_matches`. -/
def lineStarts (content : List Char) : List Nat :=
  0 :: lineStartsGo content 0

/-- The `_line_col` scan (server.py:484-493): index of the rightmost line
start not exceeding `pos`, found by a left-to-right scan. -/
def lineForGo : List Nat → Nat → Nat → Nat → Nat
  | [], _, _, acc => acc
  | s :: rest, pos, j, acc =>
    if s ≤ pos then lineForGo rest pos (j + 1) j else acc

/-- 1-based `(line, col)` of an offset, from `_line_col`. -/
def lineCol (content : List Char) (pos : Nat) : Nat × Nat :=
  let ls := lineStarts content
  let line := lineForGo ls pos 0 0
  (line + 1, pos - ls.getD line 0 + 1)

/-- Snippet with `SNIPPET_RADIUS = 80` and ellipsis markers
(server.py:495-507). -/
def snippetAt (content : List Char) (s e : Nat) : List Char :=
  let snippetStart := s - 80
  let snippetEnd := min content.length (e + 80)
  let snip := (content.drop snippetStart).take (snippetEnd - snippetStart)
  let snip := if snippetStart > 0 then lit "..." ++ snip else snip
  if snippetEnd < content.length then snip ++ lit "..." else snip

/-- Enrich raw `(start, end)` offsets with line/col and snippet
(server.py:473-518). -/
def enrichMatches (content : List Char) (ms : List (Nat × Nat)) : List GrepMatch :=
  ms.map (fun m =>
    let lc := lineCol content m.1
    { start := m.1, stop := m.2, line := lc.1, col := lc.2,
      snippet := snippetAt content m.1 m.2 })

/-- `_iter_grep_matches` (server.py:420-518). `finditer` is the compiled
CPython regex matcher for the request's pattern, abstracted as a function
of the case-sensitivity flag and the subject (the code hands the pattern
to `re.compile`, whose engine is outside this embedding; a concrete
instance for the pattern "foo.bar" is `reFooDotBar` below). -/
def iterGrepMatches (finditer : Bool → List Char → List (Nat × Nat))
    (content pat : List Char) (regex caseSensitive : Bool)
    (maxMatches : Nat) : List GrepMatch :=
  if pat = [] then []
  else
    let ms :=
      if regex then (finditer caseSensitive content).take maxMatches
      else
        let hay := if caseSensitive then content else lowerStr content
        let nee := if caseSensitive then pat else lowerStr pat
        litScan hay nee maxMatches
    enrichMatches content ms

/-- A corpus record as built by `get_all_workbook_documents`
(server.py:688-695). -/
structure DocRecord where
  workbook_id : List Char
  workbook_name : List Char
  filename : List Char
  path : List Char
  filepath : List Char
  content : List Char
deriving DecidableEq

/-- Code-point lexicographic strict order on strings (Python `<`). -/
def strLtB : List Char → List Char → Bool
  | [], [] => false
  | [], _ :: _ => true
  | _ :: _, [] => false
  | a :: as, b :: bs =>
    if a.toNat < b.toNat then true
    else if b.toNat < a.toNat then false
    else strLtB as bs

/-- Code-point lexicographic order on strings (Python `<=`). -/
def strLeB (a b : List Char) : Bool := strLtB a b || a == b

/-- The sort key ordering of `grep_workbooks` (server.py:552): ascending by
the tuple `(workbook_id, path, filename)` under Python tuple/string order. -/
def keyLeB (d1 d2 : DocRecord) : Bool :=
  strLtB d1.workbook_id d2.workbook_id ||
    (d1.workbook_id == d2.workbook_id &&
      (strLtB d1.path d2.path ||
        (d1.path == d2.path && strLeB d1.filename d2.filename)))

/-- A per-file grep result (server.py:573-583). -/
structure FileResult where
  workbook_id : List Char
  workbook_name : List Char
  filename : List Char
  path : List Char
  full_path : List Char
  match_count : Nat
  matchList : List GrepMatch
deriving DecidableEq

/-- The structured reply of `grep_workbooks` (server.py:585-594). -/
structure GrepOutput where
  pattern : List Char
  regex : Bool
  case_sensitive : Bool
  max_results : Int
  max_matches_per_file : Int
  results : List FileResult
  truncated : Bool
deriving DecidableEq

/-- Build one `FileResult` from a record and its matches. -/
def mkFileResult (d : DocRecord) (ms : List GrepMatch) : FileResult :=
  { workbook_id := d.workbook_id, workbook_name := d.workbook_name,
    filename := d.filename, path := d.path, full_path := d.filepath,
    match_count := ms.length, matchList := ms }

/-- The per-record loop of `grep_workbooks` (server.py:554-583): stop (and
flag truncation) once `max_results` file results exist, skip records with
empty content or no matches, otherwise append a file result. -/
def grepScan (finditer : Bool → List Char → List (Nat × Nat))
    (pat : List Char) (regex caseSensitive : Bool)
    (maxResults : Int) (perFile : Nat) :
    List DocRecord → List FileResult → List FileResult × Bool
  | [], acc => (acc, false)
  | d :: rest, acc =>
    if (acc.length : Int) ≥ maxResults then (acc, true)
    else if d.content = [] then
      grepScan finditer pat regex caseSensitive maxResults perFile rest acc
    else
      match iterGrepMatches finditer d.content pat regex caseSensitive perFile with
      | [] => grepScan finditer pat regex caseSensitive maxResults perFile rest acc
      | m :: ms =>
        grepScan finditer pat regex caseSensitive maxResults perFile rest
          (acc ++ [mkFileResult d (m :: ms)])

/-- `grep_workbooks` (server.py:521-594) over an already-loaded corpus
`docs`. The oversized-pattern `ValueError` is the `Except.error` case. -/
def grep_workbooks (finditer : Bool → List Char → List (Nat × Nat))
    (docs : List DocRecord) (pat : List Char) (regex caseSensitive : Bool)
    (maxResults maxMatchesPerFile : Int) :
    Except (List Char) GrepOutput :=
  if maxResults ≤ 0 then
    Except.ok
      { pattern := pat, regex := regex, case_sensitive := caseSensitive,
        max_results := maxResults, max_matches_per_file := maxMatchesPerFile,
        results := [], truncated := false }
  else if pat.length > 500 then
    Except.error (lit "Pattern too long (max 500 chars)")
  else
    let perFile : Nat := if maxMatchesPerFile ≤ 0 then 1 else maxMatchesPerFile.toNat
    let sorted := List.insertionSort (fun d1 d2 => keyLeB d1 d2 = true) docs
    let scanned := grepScan finditer pat regex caseSensitive maxResults perFile sorted []
    Except.ok
      { pattern := pat, regex := regex, case_sensitive := caseSensitive,
        max_results := maxResults, max_matches_per_file := maxMatchesPerFile,
        results := scanned.1, truncated := scanned.2 }

/-- Does "foo", any single character other than a newline, then "bar"
occur at offset `i` of `s`? This is where the compiled regex `foo.bar`
matches (without `re.DOTALL`, `.` never matches a newline; `re.MULTILINE`
only affects anchors, which the pattern does not contain). -/
def fooDotBarAt (s : List Char) (i : Nat) : Bool :=
  s[i]? == some 'f' && s[i + 1]? == some 'o' && s[i + 2]? == some 'o' &&
    (s[i + 3]?).any (fun c => c != '\n') &&
    s[i + 4]? == some 'b' && s[i + 5]? == some 'a' && s[i + 6]? == some 'r'

/-- Model of the compiled CPython matcher `re.finditer` for the concrete
pattern "foo.bar" (width 7, leftmost, non-overlapping); with
`case_sensitive = False` the code adds `re.IGNORECASE`, modelled for ASCII
by matching against the lowercased subject. -/
def reFooDotBar (caseSensitive : Bool) (content : List Char) : List (Nat × Nat) :=
  let s := if caseSensitive then content else lowerStr content
  (finditerFixed (fooDotBarAt s) content.length 7).map (fun j => (j, j + 7))

/-- The stopword set of `search_workbooks_with_content` (server.py:844). -/
def commonWords : List (List Char) :=
  [lit "who", lit "are", lit "the", lit "in", lit "a", lit "an", lit "and",
   lit "or", lit "but", lit "is", lit "was", lit "were", lit "be", lit "been",
   lit "being", lit "have", lit "has", lit "had", lit "do", lit "does",
   lit "did", lit "will", lit "would", lit "should", lit "could", lit "may",
   lit "might", lit "must", lit "can", lit "this", lit "that", lit "these",
   lit "those", lit "what", lit "when", lit "where", lit "why", lit "how"]

/-- Model of Python `str.split()` with no argument (split on whitespace
runs, no empty tokens); `acc` is the current token, reversed. -/
def splitWsGo : List Char → List Char → List (List Char)
  | [], acc => if acc = [] then [] else [acc.reverse]
  | c :: cs, acc =>
    if isSpaceChar c then
      if acc = [] then splitWsGo cs [] else acc.reverse :: splitWsGo cs []
    else splitWsGo cs (c :: acc)

/-- `re.sub(r'[^\w\s]', ' ', query_lower)` (server.py:843): replace every
character that is neither a word character nor whitespace with a space. -/
def stripPunct (s : List Char) : List Char :=
  s.map (fun c => if isWordChar c || isSpaceChar c then c else ' ')

/-- `query_words` (server.py:845): tokens of the punctuation-stripped
lowercased query that are not stopwords and are longer than 2 chars. -/
def queryWordsOf (ql : List Char) : List (List Char) :=
  (splitWsGo (stripPunct ql) []).filter
    (fun w => !commonWords.contains w && w.length > 2)

/-- `key_terms` (server.py:849-856): the query words (or the whole
lowercased query if none), each augmented with a naive singular form
(drop a trailing `s` from terms longer than 3 chars), deduplicated.
Python materialises the set in hash order; every use in the scorer is
order-independent, so any deduplication order is observationally equal
there, and `List.dedup` fixes one. -/
def keyTermsOf (ql : List Char) : List (List Char) :=
  let qw := queryWordsOf ql
  let kt := if qw = [] then [ql] else qw
  let stemmed := kt.flatMap
    (fun t => t :: (if t.getLast? = some 's' ∧ t.length > 3 then [t.dropLast] else []))
  stemmed.dedup

/-- Is position `p` of `s` a `\b` word boundary (exactly one of the two
surrounding characters is a word character)? -/
def bdryAt (s : List Char) (p : Nat) : Bool :=
  (decide (0 < p) && isWordChar (s.getD (p - 1) ' ')) !=
    (decide (p < s.length) && isWordChar (s.getD p ' '))

/-- Model of `re.search(r'\b' + re.escape(t) + r'\b', s)` (a word-boundary
guarded literal occurrence exists somewhere in `s`). -/
def wordBoundarySearch (s t : List Char) : Bool :=
  (List.range (s.length + 1)).any
    (fun i => occursAtB s t i && bdryAt s i && bdryAt s (i + t.length))

/-- The character class `[a-z0-9_-]` of the date-prefix pattern
(server.py:878). -/
def inDateClass (c : Char) : Bool :=
  ('a' ≤ c && c ≤ 'z') || c.isDigit || c = '_' || c = '-'

/-- Does `-\d{4}-\d{2}-\d{2}` occur at offset `i` of `s`? -/
def dateTailAt (s : List Char) (i : Nat) : Bool :=
  match (s.drop i).take 11 with
  | [h0, d1, d2, d3, d4, h1, d5, d6, h2, d7, d8] =>
    h0 = '-' && h1 = '-' && h2 = '-' && d1.isDigit && d2.isDigit &&
      d3.isDigit && d4.isDigit && d5.isDigit && d6.isDigit && d7.isDigit &&
      d8.isDigit
  | _ => false

/-- Length of the maximal `[a-z0-9_-]` run at the head of a string. -/
def runLenClass : List Char → Nat
  | [] => 0
  | c :: cs => if inDateClass c then runLenClass cs + 1 else 0

/-- Greedy backtracking of `[a-z0-9_-]+` at start `i`: the largest
`k ≥ 1` within the class run such that the date tail matches right after,
as the CPython engine finds it (maximal munch, then give back). -/
def findGreedyK (s : List Char) (i : Nat) : Nat → Option Nat
  | 0 => none
  | k + 1 => if dateTailAt s (i + (k + 1)) then some (k + 1) else findGreedyK s i k

/-- Model of `re.search(r'([a-z0-9_-]+-\d{4}-\d{2}-\d{2})', ql)`
(server.py:878): the leftmost match of the date-prefix pattern, with the
group being the whole match. -/
def datePrefixOf (ql : List Char) : Option (List Char) :=
  ((List.range ql.length).filterMap
    (fun i => (findGreedyK ql i (runLenClass (ql.drop i))).map
      (fun k => (ql.drop i).take (k + 11)))).head?

/-- `has_key_term` before the date-prefix special case (server.py:868-872):
some key term occurs in the lowercased content or filename. -/
def hasKeyTermB (terms : List (List Char)) (contentL filenameL : List Char) : Bool :=
  terms.any (fun t => containsSub contentL t || containsSub filenameL t)

/-- The per-document scoring of `search_workbooks_with_content`
(server.py:860-917): `none` when the document is skipped (no key term and
no date-prefix filename match), otherwise the accumulated score.
The only floating-point in the pipeline is the later `* 0.9` threshold;
the scores themselves are ints. -/
def scoreDoc (ql : List Char) (terms : List (List Char)) (d : DocRecord) : Option Nat :=
  let contentL := lowerStr d.content
  let filenameL := lowerStr d.filename
  let entry : Option Nat :=
    if hasKeyTermB terms contentL filenameL then some 0
    else
      match datePrefixOf ql with
      | some p => if p.isPrefixOf filenameL then some 10 else none
      | none => none
  match entry with
  | none => none
  | some b0 =>
    let s1 := b0 +
      (if containsSub contentL ql then 20
       else if terms.any (fun t => containsSub contentL t) then 15 else 0)
    let s2 := s1 + 5 * terms.countP (fun t => wordBoundarySearch contentL t)
    let s3 := s2 + 10 * terms.countP (fun t => containsSub filenameL t)
    let s4 := s3 + 3 * terms.countP (fun t => containsSub (lowerStr d.workbook_name) t)
    some (s4 + (if (lit ".pdf").isSuffixOf filenameL ∧ s4 > 0 then 2 else 0))

/-- `matching_docs` before sorting (server.py:858-917): the scored records
that clear the `score >= 8` floor, in corpus order. -/
def matchingDocs (ql : List Char) (terms : List (List Char))
    (docs : List DocRecord) : List (Nat × DocRecord) :=
  docs.filterMap (fun d =>
    match scoreDoc ql terms d with
    | some s => if s ≥ 8 then some (s, d) else none
    | none => none)

/-- `matching_docs` after the stable descending sort by score
(server.py:920). -/
def sortedMatching (query : List Char) (docs : List DocRecord) : List (Nat × DocRecord) :=
  List.insertionSort (fun a b => b.1 ≤ a.1)
    (matchingDocs (lowerStr query) (keyTermsOf (lowerStr query)) docs)

/-- The selection pipeline of `search_workbooks_with_content`
(server.py:926-939): keep the docs within 90 percent of the top score
(CPython compares `score >= top_score * 0.9` in floats; for int scores
this is the rational comparison `10*score >= 9*top` except possibly one
ulp at exact multiples, modelled rationally), fall back to the single top
doc if none qualify, then cap at `MAX_TOTAL_FILES = 2`. -/
def selectDocs (query : List Char) (docs : List DocRecord) : List (Nat × DocRecord) :=
  match sortedMatching query docs with
  | [] => []
  | top :: rest =>
    let filtered := (top :: rest).filter (fun sd => 10 * sd.1 ≥ 9 * top.1)
    (if filtered = [] then [top] else filtered).take 2

/-- Word-boundary occurrences of one key term in the lowercased content,
as `re.finditer` reports them (server.py:782-783). -/
def boundaryMatchAt (sL t : List Char) (i : Nat) : Bool :=
  occursAtB sL t i && bdryAt sL i && bdryAt sL (i + t.length)

/-- All `re.finditer` match starts for one term. -/
def boundaryMatches (sL t : List Char) : List Nat :=
  finditerFixed (boundaryMatchAt sL t) sL.length t.length

/-- Python `str.strip()` (drop leading and trailing whitespace). -/
def stripChars (s : List Char) : List Char :=
  ((s.dropWhile isSpaceChar).reverse.dropWhile isSpaceChar).reverse

/-- The search for the last space in `content[start-100:start]`
(server.py:797), with Python's negative-index normalisation of
`start - 100`; `none` is Python's `-1`. -/
def rfindSpaceNear (content : List Char) (start : Nat) : Option Nat :=
  let a : Int := (start : Int) - 100
  let lo : Nat := if a < 0 then ((content.length : Int) + a).toNat else a.toNat
  ((List.range start).filter
    (fun j => decide (lo ≤ j) && content.getD j 'x' = ' ')).getLast?

/-- The search for the first space in `content[end:end+100]`
(server.py:803); `none` is Python's `-1`. -/
def findSpaceNear (content : List Char) (e : Nat) : Option Nat :=
  ((List.range (min (e + 100) content.length)).filter
    (fun j => decide (e ≤ j) && content.getD j 'x' = ' ')).head?

/-- Carve the context window around a keyword position
(server.py:790-813): half the chunk size each side, snapped to spaces
within 100 chars, stripped, with ellipsis at non-boundary edges. -/
def chunkWindow (content : List Char) (pos size : Nat) : List Char :=
  let start0 := pos - size / 2
  let end0 := min content.length (pos + size / 2)
  let start1 :=
    if start0 > 0 then
      match rfindSpaceNear content start0 with
      | some j => if j > 0 then j + 1 else start0
      | none => start0
    else start0
  let end1 :=
    if end0 < content.length then
      match findSpaceNear content end0 with
      | some j => if j > 0 then j else end0
      | none => end0
    else end0
  let text := stripChars ((content.drop start1).take (end1 - start1))
  let text := if start1 > 0 then lit "..." ++ text else text
  if end1 < content.length then text ++ lit "..." else text

/-- The inner occurrence loop of `extract_context_chunks`
(server.py:783-819): skip positions within `chunk_size/2` of a covered
one, append the window, stop once `max_chunks` chunks exist. Returns the
chunks and the covered positions. -/
def eccOccs (content : List Char) (size maxC : Nat) :
    List Nat → List Nat → List (Nat × List Char) →
    List (Nat × List Char) × List Nat
  | [], cov, ch => (ch, cov)
  | pos :: rest, cov, ch =>
    if cov.any (fun c => natDist pos c < size / 2) then
      eccOccs content size maxC rest cov ch
    else
      let ch2 := ch ++ [(pos, chunkWindow content pos size)]
      let cov2 := pos :: cov
      if ch2.length ≥ maxC then (ch2, cov2)
      else eccOccs content size maxC rest cov2 ch2

/-- The outer term loop of `extract_context_chunks` (server.py:777-822):
skip terms shorter than 3 chars, scan each term's word-boundary
occurrences, stop once `max_chunks` chunks exist. -/
def eccTerms (contentL content : List Char) (size maxC : Nat) :
    List (List Char) → List Nat → List (Nat × List Char) →
    List (Nat × List Char)
  | [], _, ch => ch
  | t :: ts, cov, ch =>
    if t = [] || t.length < 3 then eccTerms contentL content size maxC ts cov ch
    else
      let r := eccOccs content size maxC (boundaryMatches contentL t) cov ch
      if r.1.length ≥ maxC then r.1
      else eccTerms contentL content size maxC ts r.2 r.1

/-- `extract_context_chunks` (server.py:758-827): keyword-centred windows,
deduplicated by minimum distance, finally sorted by position ascending. -/
def extract_context_chunks (content : List Char) (terms : List (List Char))
    (size maxC : Nat) : List (Nat × List Char) :=
  List.insertionSort (fun a b => a.1 ≤ b.1)
    (eccTerms (lowerStr content) content size maxC terms [] [])

/-- Decimal rendering of a number (Python `str(n)` for a nonnegative int). -/
def natToChars (n : Nat) : List Char := (Nat.repr n).toList

/-- Group a reversed digit string in threes, for the `{:,}` format. -/
def chunksOf3 : List Char → List (List Char)
  | [] => []
  | [a] => [[a]]
  | [a, b] => [[a, b]]
  | a :: b :: c :: rest => [a, b, c] :: chunksOf3 rest

/-- Python `f"{n:,}"` for a nonnegative int: thousands separators. -/
def commaFormat (n : Nat) : List Char :=
  (joinSep [','] (chunksOf3 (natToChars n).reverse)).reverse

/-- The per-chunk excerpt labels (server.py:967-968). -/
def formatChunkLines (chunks : List (Nat × List Char)) : List (List Char) :=
  chunks.enum.map (fun p =>
    lit "[Excerpt " ++ natToChars (p.1 + 1) ++ lit " - Position " ++
      commaFormat p.2.1 ++ lit "]\n" ++ p.2.2)

/-- One formatted result block (server.py:943-985): the preview form when
no chunk was found, the excerpt form otherwise. -/
def formatDocBlock (terms : List (List Char)) (score : Nat) (d : DocRecord) : List Char :=
  let chunks := extract_context_chunks d.content terms 1000 5
  let header := lit "**" ++ d.filename ++ lit "** (" ++ d.workbook_name ++
    lit ")\nWorkbook ID: " ++ d.workbook_id ++ lit "\nPath: " ++ d.path ++
    lit "\nRelevance Score: " ++ natToChars score ++ lit "\nTotal Length: " ++
    natToChars d.content.length ++ lit " characters\n"
  if chunks.length = 0 then
    let preview := d.content.take 2000 ++
      (if d.content.length > 2000 then
        lit "\n\n[Preview only - document is " ++ natToChars d.content.length ++
          lit " characters total. Use read_workbook_file to get the complete document.]"
       else [])
    header ++ lit "\n=== PREVIEW (first 2,000 chars) ===\n" ++ preview ++
      lit "\n\n---\n"
  else
    let chunksText := joinSep (lit "\n\n") (formatChunkLines chunks)
    let totalChunkChars := (chunks.map (fun c => c.2.length)).sum
    header ++ lit "Chunks: " ++ natToChars chunks.length ++ lit " excerpts (" ++
      natToChars totalChunkChars ++
      lit " characters total)\n\n=== CONTEXT EXCERPTS (around keywords: " ++
      joinSep (lit ", ") (terms.take 5) ++ lit ") ===\n" ++ chunksText ++
      lit "\n\n[NOTE: This shows only relevant excerpts. To read the complete document, use read_workbook_file with the workbook ID and path above.]\n\n---\n"

/-- `search_workbooks_with_content` (server.py:830-987) over an
already-loaded corpus `docs`. The `limit` argument is part of the tool
signature (server.py:830) and is taken here exactly as the code takes it. -/
def search_workbooks_with_content (query : List Char) (limit : Nat)
    (docs : List DocRecord) : List Char :=
  if docs = [] then lit "No workbook documents found."
  else
    match sortedMatching query docs with
    | [] =>
      lit "No matches found for '" ++ query ++
        lit "'.\n\nAvailable documents:\n" ++
        joinSep (lit "\n") ((docs.take 20).map
          (fun d => lit "- " ++ d.filename ++ lit " (" ++ d.workbook_name ++ lit ")"))
    | _ :: _ =>
      joinSep (lit "\n") ((selectDocs query docs).map
        (fun sd => formatDocBlock (keyTermsOf (lowerStr query)) sd.1 sd.2))

/-- The on-disk reality of one document file, as the extractors observe
it. The byte-level behaviour of the extraction libraries (pypdf,
python-docx, pandas, the JSON renderer) and of the codec lookups is
abstracted into per-format outcomes: an `Except` carries either the
library's payload or the message of the exception it raised. `read_file`
and the cache/loader logic downstream are translated exactly. -/
instance {e a : Type} [DecidableEq e] [DecidableEq a] : DecidableEq (Except e a) := fun x y =>
  match x, y with
  | Except.ok u, Except.ok v =>
    if h : u = v then isTrue (by rw [h]) else isFalse (by simp [h])
  | Except.error u, Except.error v =>
    if h : u = v then isTrue (by rw [h]) else isFalse (by simp [h])
  | Except.ok _, Except.error _ => isFalse (by simp)
  | Except.error _, Except.ok _ => isFalse (by simp)

structure FileModel where
  /-- `str(file_path)`, the cache key and the path echoed in sentinels. -/
  path : List Char
  /-- `file_path.suffix.lower()`. -/
  ext : List Char
  /-- pypdf page texts, or the exception message. -/
  pdfOutcome : Except (List Char) (List (List Char))
  /-- python-docx paragraph/table-row texts (already stripped and
  pipe-joined as in server.py:133-140), or the exception message. -/
  docxOutcome : Except (List Char) (List (List Char))
  /-- pandas sheets as (name, rendered table) pairs, or the message. -/
  excelOutcome : Except (List Char) (List (List Char × List Char))
  /-- The rendered Insight-Sheet text (server.py:174-378, rendering
  abstracted as the payload), a JSON parse error message, or another
  exception message. -/
  isOutcome : Except (Bool × List Char) (List Char)
  /-- The first successful decode among utf-8, utf-8-sig, latin-1, cp1252,
  or `none` when every codec raised `UnicodeDecodeError`. -/
  decodedText : Option (List Char)
deriving DecidableEq

/-- `extract_text_from_pdf` (server.py:112-124). -/
def extract_text_from_pdf (f : FileModel) : List Char :=
  match f.pdfOutcome with
  | Except.ok pages =>
    let parts := pages.filter (fun p => p ≠ [])
    if parts = [] then [] else joinSep (lit "\n\n") parts
  | Except.error e => lit "Error extracting PDF: " ++ e

/-- `extract_text_from_docx` (server.py:127-143). -/
def extract_text_from_docx (f : FileModel) : List Char :=
  match f.docxOutcome with
  | Except.ok parts => if parts = [] then [] else joinSep (lit "\n\n") parts
  | Except.error e => lit "Error extracting DOCX: " ++ e

/-- `extract_text_from_excel` (server.py:146-168). -/
def extract_text_from_excel (f : FileModel) : List Char :=
  match f.excelOutcome with
  | Except.ok sheets =>
    let parts := sheets.flatMap
      (fun s => [lit "=== Sheet: " ++ s.1 ++ lit " ===", s.2, []])
    if parts = [] then [] else joinSep (lit "\n\n") parts
  | Except.error e => lit "Error extracting Excel: " ++ e

/-- `extract_text_from_insight_sheet` (server.py:171-382); the error flag
distinguishes `json.JSONDecodeError` from any other exception. -/
def extract_text_from_insight_sheet (f : FileModel) : List Char :=
  match f.isOutcome with
  | Except.ok text => text
  | Except.error e =>
    if e.1 then lit "Error parsing Insight Sheet JSON: " ++ e.2
    else lit "Error extracting Insight Sheet: " ++ e.2

/-- `read_file` (server.py:396-417): dispatch on the lowercased extension;
unknown extensions go through the text-decode ladder, whose total failure
yields the could-not-decode sentinel. -/
def read_file (f : FileModel) : List Char :=
  if f.ext = lit ".pdf" then extract_text_from_pdf f
  else if f.ext = lit ".docx" ∨ f.ext = lit ".doc" then extract_text_from_docx f
  else if f.ext = lit ".xlsx" ∨ f.ext = lit ".xls" then extract_text_from_excel f
  else if f.ext = lit ".is" then extract_text_from_insight_sheet f
  else
    match f.decodedText with
    | some t => t
    | none => lit "Could not decode file: " ++ f.path

/-- One `_document_cache` value: `(content, mtime)`; mtimes are modelled
as naturals. -/
structure CacheEntry where
  content : List Char
  mtime : Nat
deriving DecidableEq

/-- The `_document_cache` dict, as an association list keyed by
`str(file_path)` (Python dicts have unique keys; the operations below are
the dict operations under that invariant). -/
abbrev Cache : Type := List (List Char × CacheEntry)

/-- Dict membership / indexing: the entry stored under `k`. -/
def lookupC (c : Cache) (k : List Char) : Option CacheEntry :=
  (List.find? (fun e => e.1 = k) c).map (fun e => e.2)

/-- `dict.pop(k, None)`: drop the entry stored under `k`. -/
def popC (c : Cache) (k : List Char) : Cache :=
  List.filter (fun e => decide (e.1 ≠ k)) c

/-- `dict[k] = v`: replace the entry in place, or append a new one. -/
def insertC (c : Cache) (k : List Char) (v : CacheEntry) : Cache :=
  if (List.find? (fun e => e.1 = k) c).isSome then
    List.map (fun e => if e.1 = k then (k, v) else e) c
  else c ++ [(k, v)]

/-- The static fields of one document entry during a corpus load: the
workbook it belongs to, its metadata, its file, and the file's current
mtime (`file_path.stat().st_mtime`). -/
structure DocMeta where
  workbook_id : List Char
  workbook_name : List Char
  filename : List Char
  relpath : List Char
  file : FileModel
  mtime : Nat
deriving DecidableEq

/-- The corpus record built for a document (server.py:688-695). -/
def mkRecord (m : DocMeta) (content : List Char) : DocRecord :=
  { workbook_id := m.workbook_id, workbook_name := m.workbook_name,
    filename := m.filename, path := m.relpath, filepath := m.file.path,
    content := content }

/-- The cache consultation of `get_all_workbook_documents`
(server.py:659-674): reuse the entry while `file_mtime <= cached_mtime`,
pop it otherwise; yields the (possibly updated) cache and the `content`
variable (empty when nothing was reused). -/
def cacheProbe (cache : Cache) (key : List Char) (mtime : Nat) : Cache × List Char :=
  match lookupC cache key with
  | some e =>
    if mtime ≤ e.mtime then (cache, e.content)
    else (popC cache key, [])
  | none => (cache, [])

/-- The extraction step of `get_all_workbook_documents`
(server.py:676-685): when no content came from the cache, extract the
file and cache the result only when it is non-empty and does not start
with "Error". -/
def extractIfEmpty (f : FileModel) (mtime : Nat) (key : List Char)
    (p : Cache × List Char) : Cache × List Char :=
  if p.2 = [] then
    (if read_file f ≠ [] ∧ ¬ (lit "Error").isPrefixOf (read_file f) then
      insertC p.1 key { content := read_file f, mtime := mtime }
     else p.1, read_file f)
  else p

/-- The per-document body of `get_all_workbook_documents`
(server.py:659-695): cache probe, conditional extraction, then emit a
record exactly when the content is non-empty and does not start with
"Error". Returns the updated cache and the optional record. -/
def processDoc (cache : Cache) (m : DocMeta) : Cache × Option DocRecord :=
  let p := extractIfEmpty m.file m.mtime m.file.path
    (cacheProbe cache m.file.path m.mtime)
  if p.2 ≠ [] ∧ ¬ (lit "Error").isPrefixOf p.2 then
    (p.1, some (mkRecord m p.2))
  else (p.1, none)

/-- The module-level cache state: `_document_cache` plus
`_cache_timestamp` (the staleness stamp; `none` is Python's `None`). -/
structure RagState where
  cache : Cache
  stamp : Option Nat
deriving DecidableEq

/-- The reply of `clear_cache` (server.py:57-92). -/
structure ClearResult where
  cleared : Nat
  scope : List Char
deriving DecidableEq

/-- `clear_cache` (server.py:57-92). Python's falsy test on the optional
string arguments conflates `None` and `""`, so absent arguments are the
empty string. `pathStr` models `str(Path(·))` and `wbDirOf` models
`str(data_dir / "workbooks" / workbook_id)` (filesystem path
normalisation is outside the embedding). -/
def clear_cache (pathStr wbDirOf : List Char → List Char) (st : RagState)
    (workbook_id file_path : List Char) : RagState × ClearResult :=
  if file_path ≠ [] then
    let k := pathStr file_path
    let removed := if (lookupC st.cache k).isSome then 1 else 0
    ({ st with cache := popC st.cache k }, { cleared := removed, scope := lit "file" })
  else if workbook_id ≠ [] then
    let dirStr := wbDirOf workbook_id
    let removed := (st.cache.filter (fun e => dirStr.isPrefixOf e.1)).length
    ({ st with cache := st.cache.filter (fun e => ¬ dirStr.isPrefixOf e.1) },
      { cleared := removed, scope := lit "workbook" })
  else
    ({ cache := [], stamp := none },
      { cleared := st.cache.length, scope := lit "all" })

/-- The ascending key order on emitted file results, matching `keyLeB` on
the echoed `(workbook_id, path, filename)` fields. -/
def resKeyLeB (r1 r2 : FileResult) : Bool :=
  strLtB r1.workbook_id r2.workbook_id ||
    (r1.workbook_id == r2.workbook_id &&
      (strLtB r1.path r2.path ||
        (r1.path == r2.path && strLeB r1.filename r2.filename)))

/-- Does a record produce at least one grep match (and hence a file
result) under the given request? -/
def docMatchesB (finditer : Bool → List Char → List (Nat × Nat))
    (pat : List Char) (regex caseSensitive : Bool) (perFile : Nat)
    (d : DocRecord) : Bool :=
  decide (d.content ≠ []) &&
    decide (iterGrepMatches finditer d.content pat regex caseSensitive perFile ≠ [])

/-! ### Concrete instances used by witnesses and counterexamples -/

/-- A text file none of the four codecs can decode. -/
def c1file : FileModel :=
  { path := lit "/data/workbooks/w1/documents/x.txt", ext := lit ".txt",
    pdfOutcome := Except.ok [], docxOutcome := Except.ok [],
    excelOutcome := Except.ok [], isOutcome := Except.ok [],
    decodedText := none }

/-- The document entry for `c1file`. -/
def c1meta : DocMeta :=
  { workbook_id := lit "w1", workbook_name := lit "W", filename := lit "x.txt",
    relpath := lit "documents/x.txt", file := c1file, mtime := 3 }

/-- A plain text file that decodes to "new text". -/
def c3file : FileModel :=
  { path := lit "/data/workbooks/w1/documents/n.txt", ext := lit ".txt",
    pdfOutcome := Except.ok [], docxOutcome := Except.ok [],
    excelOutcome := Except.ok [], isOutcome := Except.ok [],
    decodedText := some (lit "new text") }

/-- The document entry for `c3file`, seen at mtime 7. -/
def c3meta : DocMeta :=
  { workbook_id := lit "w1", workbook_name := lit "W", filename := lit "n.txt",
    relpath := lit "documents/n.txt", file := c3file, mtime := 7 }

/-- A cache holding stale content for `c3file` extracted at mtime 5. -/
def c3cache : Cache :=
  [(lit "/data/workbooks/w1/documents/n.txt", { content := lit "old text", mtime := 5 })]

/-- A document whose body contains the exact query phrase of the C4
scenario but no word-boundary term occurrence. -/
def c4docA : DocRecord :=
  { workbook_id := lit "w1", workbook_name := lit "wb", filename := lit "doc1.txt",
    path := lit "documents/doc1.txt", filepath := lit "/w/doc1.txt",
    content := lit "xalpha betaxy" }

/-- A document matching the C4 query only through its filename. -/
def c4docB : DocRecord :=
  { workbook_id := lit "w1", workbook_name := lit "wb", filename := lit "alpha-beta.pdf",
    path := lit "documents/alpha-beta.pdf", filepath := lit "/w/alpha-beta.pdf",
    content := lit "nothing here" }

/-- A document containing the exact phrase "orbit velocity". -/
def c4winA : DocRecord :=
  { workbook_id := lit "w1", workbook_name := lit "wb", filename := lit "phys.txt",
    path := lit "documents/phys.txt", filepath := lit "/w/phys.txt",
    content := lit "the orbit velocity is high" }

/-- A document matching the query "orbit velocity" only via the single
term "orbit" in its filename. -/
def c4winB : DocRecord :=
  { workbook_id := lit "w1", workbook_name := lit "wb", filename := lit "orbit-data.pdf",
    path := lit "documents/orbit-data.pdf", filepath := lit "/w/orbit-data.pdf",
    content := lit "nothing here" }

/-- A single-document corpus matching the query "alpha". -/
def c5doc : DocRecord :=
  { workbook_id := lit "w1", workbook_name := lit "wb", filename := lit "a.txt",
    path := lit "documents/a.txt", filepath := lit "/w/a.txt",
    content := lit "alpha beta" }

/-- A document whose content and filename avoid the C8 query terms. -/
def c8doc : DocRecord :=
  { workbook_id := lit "w1", workbook_name := lit "wb", filename := lit "notes.txt",
    path := lit "documents/notes.txt", filepath := lit "/w/notes.txt",
    content := lit "nothing relevant" }

/-- A record containing the grep pattern of the C7 scenario. -/
def c7docA : DocRecord :=
  { workbook_id := lit "w", workbook_name := lit "wb", filename := lit "a.txt",
    path := lit "documents/a.txt", filepath := lit "/w/a.txt",
    content := lit "foo" }

/-- A record with no occurrence of the C7 pattern. -/
def c7docB : DocRecord :=
  { workbook_id := lit "w", workbook_name := lit "wb", filename := lit "b.txt",
    path := lit "documents/b.txt", filepath := lit "/w/b.txt",
    content := lit "zzz" }

/-- A regex matcher stub for requests that never take the regex path. -/
def noRegex : Bool → List Char → List (Nat × Nat) := fun _ _ => []

/-- The single match of the C7 grep scenario. -/
def c7match : GrepMatch :=
  { start := 0, stop := 3, line := 1, col := 1, snippet := lit "foo" }

/-- The single file result of the C7 grep scenario. -/
def c7res : FileResult :=
  { workbook_id := lit "w", workbook_name := lit "wb",
    filename := lit "a.txt", path := lit "documents/a.txt",
    full_path := lit "/w/a.txt", match_count := 1,
    matchList := [c7match] }

/-- The reply of the C7 grep scenario (pattern "foo", `max_results = 1`
over `[c7docA, c7docB]`). -/
def c7out : GrepOutput :=
  { pattern := lit "foo", regex := false, case_sensitive := false,
    max_results := 1, max_matches_per_file := 20,
    results := [c7res], truncated := true }

/-- The descending-score preorder is total. -/
instance : IsTotal (Nat × DocRecord) (fun a b => b.1 ≤ a.1) :=
  ⟨fun a b => Nat.le_total b.1 a.1⟩

/-- The descending-score preorder is transitive. -/
instance : IsTrans (Nat × DocRecord) (fun a b => b.1 ≤ a.1) :=
  ⟨fun _ _ _ h1 h2 => Nat.le_trans h2 h1⟩

/-- The ascending-position preorder is total. -/
instance : IsTotal (Nat × List Char) (fun a b => a.1 ≤ b.1) :=
  ⟨fun a b => Nat.le_total a.1 b.1⟩

/-- The ascending-position preorder is transitive. -/
instance : IsTrans (Nat × List Char) (fun a b => a.1 ≤ b.1) :=
  ⟨fun _ _ _ h1 h2 => Nat.le_trans h1 h2⟩

/-! ### Theorems -/

/-! #### Dictionary operation lemmas -/

theorem find?_congrB {p q : List Char × CacheEntry → Bool} (l : Cache)
    (h : ∀ a, p a = q a) : List.find? p l = List.find? q l := by
  induction l with
  | nil => rfl
  | cons a as ih => rw [List.find?_cons, List.find?_cons, h a]; cases q a <;> simp [ih]

theorem lookupC_popC_self (c : Cache) (k : List Char) :
    lookupC (popC c k) k = none := by
  unfold lookupC popC
  rw [List.find?_filter]
  rw [List.find?_eq_none.mpr (fun x _ => by simp)]
  rfl

theorem lookupC_popC_ne (c : Cache) (k k' : List Char) (h : k' ≠ k) :
    lookupC (popC c k) k' = lookupC c k' := by
  unfold lookupC popC
  rw [List.find?_filter]
  have hcong : List.find?
      (fun a => decide ((fun e => decide (e.1 ≠ k)) a = true ∧ (fun e => decide (e.1 = k')) a = true)) c =
      List.find? (fun e => decide (e.1 = k')) c := by
    apply find?_congrB
    intro a
    by_cases ha : a.1 = k'
    · have : a.1 ≠ k := by rw [ha]; exact h
      simp [ha, this, h]
    · simp [ha]
  rw [hcong]

theorem lookupC_insertC_self (c : Cache) (k : List Char) (v : CacheEntry) :
    lookupC (insertC c k v) k = some v := by
  unfold lookupC insertC
  by_cases hs : (List.find? (fun e => e.1 = k) c).isSome
  · rw [if_pos hs, List.find?_map]
    have hcong : List.find? ((fun e => decide (e.1 = k)) ∘
        (fun e => if e.1 = k then (k, v) else e)) c =
        List.find? (fun e => decide (e.1 = k)) c := by
      apply find?_congrB
      intro a
      by_cases ha : a.1 = k <;> simp [ha]
    rw [hcong]
    obtain ⟨e0, he0⟩ := Option.isSome_iff_exists.mp hs
    rw [he0]
    have hk : e0.1 = k := by simpa using List.find?_some he0
    simp [hk]
  · rw [if_neg hs, List.find?_append]
    have hn : List.find? (fun e => decide (e.1 = k)) c = none := by
      cases hf : List.find? (fun e => decide (e.1 = k)) c with
      | none => rfl
      | some e => rw [hf] at hs; simp at hs
    rw [hn]
    simp [List.find?]

theorem lookupC_insertC_ne (c : Cache) (k k' : List Char) (v : CacheEntry)
    (h : k' ≠ k) :
    lookupC (insertC c k v) k' = lookupC c k' := by
  unfold lookupC insertC
  by_cases hs : (List.find? (fun e => e.1 = k) c).isSome
  · rw [if_pos hs, List.find?_map]
    have hcong : List.find? ((fun e => decide (e.1 = k')) ∘
        (fun e => if e.1 = k then (k, v) else e)) c =
        List.find? (fun e => decide (e.1 = k')) c := by
      apply find?_congrB
      intro a
      by_cases ha : a.1 = k
      · have h1 : ¬ (k = k') := fun hh => h hh.symm
        have h2 : ¬ (a.1 = k') := by rw [ha]; exact h1
        simp [ha, h1, h2]
      · simp [ha]
    rw [hcong]
    cases hf : List.find? (fun e => decide (e.1 = k')) c with
    | none => simp
    | some e0 =>
      have hk' : e0.1 = k' := by simpa using List.find?_some hf
      have : e0.1 ≠ k := by rw [hk']; exact h
      simp [this]
  · rw [if_neg hs, List.find?_append]
    cases hf : List.find? (fun e => decide (e.1 = k')) c with
    | none =>
      have : ¬ ((k, v).1 = k') := fun hh => h hh.symm
      simp [List.find?, this]
    | some e0 => simp

/-! #### C9: the limit argument has no effect on content search -/

/-- C9: for every query, corpus and any two values of the `limit`
argument, `search_workbooks_with_content` returns identical output, and
the number of documents it selects is bounded by the hard-coded cap of 2,
not by `limit`. -/
theorem C9_limit_has_no_effect (query : List Char) (docs : List DocRecord)
    (limit1 limit2 : Nat) :
    search_workbooks_with_content query limit1 docs =
      search_workbooks_with_content query limit2 docs ∧
    (selectDocs query docs).length ≤ 2 := by
  refine ⟨rfl, ?_⟩
  unfold selectDocs
  cases h : sortedMatching query docs with
  | nil => simp
  | cons top rest =>
    simp only
    exact List.length_take_le 2 _

/-! #### C10: clear_cache frame conditions -/

/-- C10: with a file_path argument, `clear_cache` removes at most the
single entry stored under that path, leaves every other entry and the
staleness stamp unchanged and reports scope "file" with the removal
count, even when a workbook_id is supplied as well; any call with an
argument keeps the stamp, and only the no-argument call clears the whole
cache and resets the stamp. -/
theorem C10_clear_cache_file_scope (pathStr wbDirOf : List Char → List Char)
    (st : RagState) (workbook_id file_path : List Char)
    (h : file_path ≠ []) :
    (clear_cache pathStr wbDirOf st workbook_id file_path).1.cache =
      popC st.cache (pathStr file_path) ∧
    lookupC (clear_cache pathStr wbDirOf st workbook_id file_path).1.cache
      (pathStr file_path) = none ∧
    (∀ k, k ≠ pathStr file_path →
      lookupC (clear_cache pathStr wbDirOf st workbook_id file_path).1.cache k =
        lookupC st.cache k) ∧
    (clear_cache pathStr wbDirOf st workbook_id file_path).1.stamp = st.stamp ∧
    (clear_cache pathStr wbDirOf st workbook_id file_path).2 =
      { cleared := if (lookupC st.cache (pathStr file_path)).isSome then 1 else 0,
        scope := lit "file" } ∧
    (∀ wb2 fp2, wb2 ≠ [] ∨ fp2 ≠ [] →
      (clear_cache pathStr wbDirOf st wb2 fp2).1.stamp = st.stamp) ∧
    (clear_cache pathStr wbDirOf st [] []).1 = { cache := [], stamp := none } ∧
    (clear_cache pathStr wbDirOf st [] []).2 =
      { cleared := st.cache.length, scope := lit "all" } := by
  refine ⟨?_, ?_, ?_, ?_, ?_, ?_, ?_, ?_⟩
  · simp [clear_cache, h]
  · simp only [clear_cache, h, if_pos, ne_eq, not_false_eq_true, if_true]
    exact lookupC_popC_self st.cache (pathStr file_path)
  · intro k hk
    simp only [clear_cache, h, if_pos, ne_eq, not_false_eq_true, if_true]
    exact lookupC_popC_ne st.cache (pathStr file_path) k hk
  · simp [clear_cache, h]
  · simp [clear_cache, h]
  · intro wb2 fp2 h2
    by_cases hf : fp2 = []
    · rcases h2 with h2 | h2
      · simp [clear_cache, hf, h2]
      · exact absurd hf h2
    · simp [clear_cache, hf]
  · simp [clear_cache]
  · simp [clear_cache]

/-- Witness for C10: clearing a concrete one-entry cache by file path,
with a workbook id also supplied, reports one removed entry with scope
"file" and keeps the stamp. -/
theorem C10_witness :
    (clear_cache id id { cache := c3cache, stamp := some 5 } (lit "w1")
      (lit "/data/workbooks/w1/documents/n.txt")).1.stamp = some 5 ∧
    (clear_cache id id { cache := c3cache, stamp := some 5 } (lit "w1")
      (lit "/data/workbooks/w1/documents/n.txt")).2 =
      { cleared := 1, scope := lit "file" } := by
  have h := C10_clear_cache_file_scope id id
    { cache := c3cache, stamp := some 5 } (lit "w1")
    (lit "/data/workbooks/w1/documents/n.txt") (by decide)
  refine ⟨h.2.2.2.1, ?_⟩
  rw [h.2.2.2.2.1]
  decide

/-! #### C1: which extraction sentinels the loader filters -/

theorem lookup_after_maybe_insert (c0 cache : Cache) (key fresh : List Char)
    (mt : Nat)
    (hbase : ∀ k v, lookupC c0 k = some v → lookupC cache k = some v) :
    ∀ k v, lookupC
        (if fresh ≠ [] ∧ ¬ (lit "Error").isPrefixOf fresh then
          insertC c0 key { content := fresh, mtime := mt } else c0) k = some v →
      lookupC cache k = some v ∨
        (v.content = fresh ∧ fresh ≠ [] ∧ ¬ (lit "Error").isPrefixOf fresh) := by
  intro k v hv
  by_cases hpass : fresh ≠ [] ∧ ¬ (lit "Error").isPrefixOf fresh
  · rw [if_pos hpass] at hv
    by_cases hk : k = key
    · subst hk
      rw [lookupC_insertC_self] at hv
      right
      have : v = { content := fresh, mtime := mt } := by
        injection hv.symm
      rw [this]
      exact ⟨rfl, hpass.1, hpass.2⟩
    · rw [lookupC_insertC_ne c0 key k _ hk] at hv
      exact Or.inl (hbase k v hv)
  · rw [if_neg hpass] at hv
    exact Or.inl (hbase k v hv)

/-- C1 counterexample: a text file none of the codecs can decode yields
the could-not-decode sentinel, which does not start with "Error"; the
loader caches it and emits a corpus record carrying it, contradicting the
claim that the could-not-decode sentinel is never cached and its document
never included. -/
theorem C1_counterexample :
    read_file c1file =
      lit "Could not decode file: /data/workbooks/w1/documents/x.txt" ∧
    (processDoc [] c1meta).2 =
      some (mkRecord c1meta
        (lit "Could not decode file: /data/workbooks/w1/documents/x.txt")) ∧
    lookupC (processDoc [] c1meta).1 (lit "/data/workbooks/w1/documents/x.txt") =
      some { content := lit "Could not decode file: /data/workbooks/w1/documents/x.txt",
             mtime := 3 } := by
  refine ⟨by decide, by decide, by decide⟩

/-- C1 (amended): the loader never emits a record whose content is empty
or starts with "Error", and never caches such a string: every cache entry
after a per-document step was either already present or is a fresh
extraction that is non-empty and does not start with "Error". (The
"Could not decode" sentinel does not start with "Error" and is treated as
ordinary content, per `C1_counterexample`.) -/
theorem processDoc_fst (cache : Cache) (m : DocMeta) :
    (processDoc cache m).1 =
      (extractIfEmpty m.file m.mtime m.file.path
        (cacheProbe cache m.file.path m.mtime)).1 := by
  simp only [processDoc]
  split <;> rfl

theorem cacheProbe_fst_lookup (cache : Cache) (key : List Char) (mtime : Nat) :
    ∀ k v, lookupC (cacheProbe cache key mtime).1 k = some v →
      lookupC cache k = some v := by
  intro k v hv
  unfold cacheProbe at hv
  rcases hl : lookupC cache key with _ | e
  all_goals rw [hl] at hv
  all_goals dsimp only at hv
  · exact hv
  · by_cases hmt : mtime ≤ e.mtime
    · rw [if_pos hmt] at hv; exact hv
    · rw [if_neg hmt] at hv
      by_cases hk : k = key
      · rw [hk, lookupC_popC_self] at hv; exact absurd hv (by simp)
      · rwa [lookupC_popC_ne cache key k hk] at hv

theorem extractIfEmpty_fst_lookup (f : FileModel) (mtime : Nat)
    (key : List Char) (p : Cache × List Char) (cache : Cache)
    (hbase : ∀ k v, lookupC p.1 k = some v → lookupC cache k = some v) :
    ∀ k v, lookupC (extractIfEmpty f mtime key p).1 k = some v →
      lookupC cache k = some v ∨
        (v.content = read_file f ∧ v.content ≠ [] ∧
          ¬ (lit "Error").isPrefixOf v.content) := by
  intro k v hv
  unfold extractIfEmpty at hv
  by_cases hp : p.2 = []
  · rw [if_pos hp] at hv
    have step := lookup_after_maybe_insert p.1 cache key (read_file f)
      mtime hbase k v
    rcases step (by simpa using hv) with h | h
    · exact Or.inl h
    · exact Or.inr ⟨h.1, h.1 ▸ h.2.1, h.1 ▸ h.2.2⟩
  · rw [if_neg hp] at hv
    exact Or.inl (hbase k v hv)

/-- C1 (amended): the loader never emits a record whose content is empty
or starts with "Error", and never caches such a string: every cache entry
after a per-document step was either already present or is a fresh
extraction that is non-empty and does not start with "Error". (The
"Could not decode" sentinel does not start with "Error" and is treated as
ordinary content, per `C1_counterexample`.) -/
theorem C1_amended_loader_filters_error_sentinels (cache : Cache) (m : DocMeta) :
    (∀ rec : DocRecord, (processDoc cache m).2 = some rec →
      rec.content ≠ [] ∧ ¬ (lit "Error").isPrefixOf rec.content) ∧
    (∀ k v, lookupC (processDoc cache m).1 k = some v →
      lookupC cache k = some v ∨
        (v.content = read_file m.file ∧ v.content ≠ [] ∧
          ¬ (lit "Error").isPrefixOf v.content)) := by
  constructor
  · intro rec hrec
    simp only [processDoc] at hrec
    split at hrec
    · next hcond =>
      have hrec2 : mkRecord m
          (extractIfEmpty m.file m.mtime m.file.path
            (cacheProbe cache m.file.path m.mtime)).2 = rec := by
        injection hrec
      rw [← hrec2]
      exact ⟨hcond.1, hcond.2⟩
    · exact absurd hrec (by simp)
  · intro k v hv
    rw [processDoc_fst] at hv
    exact extractIfEmpty_fst_lookup m.file m.mtime m.file.path
      (cacheProbe cache m.file.path m.mtime) cache
      (cacheProbe_fst_lookup cache m.file.path m.mtime) k v hv

/-- Witness for C1 (amended): the record emitted for a decodable text file
over an empty cache is non-empty and does not carry an "Error" sentinel. -/
theorem C1_witness :
    (mkRecord c3meta (lit "new text")).content ≠ [] ∧
    ¬ (lit "Error").isPrefixOf (mkRecord c3meta (lit "new text")).content :=
  (C1_amended_loader_filters_error_sentinels [] c3meta).1
    (mkRecord c3meta (lit "new text")) (by decide)

/-! #### C3: mtime-based cache validity -/

/-- C3: a cache entry is reused exactly while the file's current mtime is
at most the cached mtime (the cache and the reused content are then
untouched), and when the mtime strictly increases the next load evicts
the entry, re-extracts, and both the emitted record and the refreshed
cache entry carry the newly extracted content, never the stale value. -/
theorem C3_cache_mtime_policy (cache : Cache) (m : DocMeta) (e : CacheEntry)
    (hl : lookupC cache m.file.path = some e) :
    (m.mtime ≤ e.mtime → e.content ≠ [] →
      (processDoc cache m).1 = cache ∧
      (processDoc cache m).2 =
        (if (lit "Error").isPrefixOf e.content then none
         else some (mkRecord m e.content))) ∧
    (e.mtime < m.mtime →
      lookupC (processDoc cache m).1 m.file.path =
        (if read_file m.file ≠ [] ∧ ¬ (lit "Error").isPrefixOf (read_file m.file) then
          some { content := read_file m.file, mtime := m.mtime } else none) ∧
      (processDoc cache m).2 =
        (if read_file m.file ≠ [] ∧ ¬ (lit "Error").isPrefixOf (read_file m.file) then
          some (mkRecord m (read_file m.file)) else none)) := by
  constructor
  · intro hmt hec
    have hprobe : cacheProbe cache m.file.path m.mtime = (cache, e.content) := by
      unfold cacheProbe
      rw [hl]
      dsimp only
      rw [if_pos hmt]
    have hext : extractIfEmpty m.file m.mtime m.file.path (cache, e.content) =
        (cache, e.content) := by
      unfold extractIfEmpty
      dsimp only
      rw [if_neg hec]
    by_cases hpre : (lit "Error").isPrefixOf e.content
    · constructor
      · simp [processDoc, hprobe, hext, hpre]
      · simp [processDoc, hprobe, hext, hpre]
    · constructor
      · simp [processDoc, hprobe, hext, hpre, hec]
      · simp [processDoc, hprobe, hext, hpre, hec]
  · intro hst
    have hmt : ¬ m.mtime ≤ e.mtime := by omega
    have hprobe : cacheProbe cache m.file.path m.mtime =
        (popC cache m.file.path, []) := by
      unfold cacheProbe
      rw [hl]
      dsimp only
      rw [if_neg hmt]
    by_cases hpass : read_file m.file ≠ [] ∧
        ¬ (lit "Error").isPrefixOf (read_file m.file)
    · have hext : extractIfEmpty m.file m.mtime m.file.path
          (popC cache m.file.path, []) =
          (insertC (popC cache m.file.path) m.file.path
            { content := read_file m.file, mtime := m.mtime }, read_file m.file) := by
        unfold extractIfEmpty
        dsimp only
        rw [if_pos rfl, if_pos hpass]
      constructor
      · rw [processDoc_fst, hprobe, hext]
        dsimp only
        rw [if_pos hpass]
        exact lookupC_insertC_self _ _ _
      · simp [processDoc, hprobe, hext, hpass.1, hpass.2, hpass]
    · have hext : extractIfEmpty m.file m.mtime m.file.path
          (popC cache m.file.path, []) =
          (popC cache m.file.path, read_file m.file) := by
        unfold extractIfEmpty
        dsimp only
        rw [if_pos rfl, if_neg hpass]
      constructor
      · rw [processDoc_fst, hprobe, hext]
        dsimp only
        rw [if_neg hpass]
        exact lookupC_popC_self _ _
      · have h2 : ¬ (read_file m.file ≠ [] ∧
            ¬ (lit "Error").isPrefixOf (read_file m.file)) := hpass
        simp only [processDoc, hprobe, hext]
        rw [if_neg h2, if_neg h2]

/-- Witness for C3: with a stale cache entry (cached mtime 5, file mtime
7) the load returns the freshly decoded text and refreshes the cache
entry to the new mtime. -/
theorem C3_witness :
    lookupC (processDoc c3cache c3meta).1 (lit "/data/workbooks/w1/documents/n.txt") =
      (if read_file c3file ≠ [] ∧ ¬ (lit "Error").isPrefixOf (read_file c3file) then
        some { content := read_file c3file, mtime := 7 } else none) ∧
    (processDoc c3cache c3meta).2 =
      (if read_file c3file ≠ [] ∧ ¬ (lit "Error").isPrefixOf (read_file c3file) then
        some (mkRecord c3meta (read_file c3file)) else none) :=
  (C3_cache_mtime_policy c3cache c3meta { content := lit "old text", mtime := 5 }
    (by decide)).2 (by decide)

/-! #### C5: the ranking selection pipeline -/

theorem mem_matchingDocs_score (ql : List Char) (terms : List (List Char))
    (docs : List DocRecord) (sd : Nat × DocRecord)
    (h : sd ∈ matchingDocs ql terms docs) : 8 ≤ sd.1 := by
  unfold matchingDocs at h
  obtain ⟨d, _, hf⟩ := List.mem_filterMap.mp h
  rcases hs : scoreDoc ql terms d with _ | s
  all_goals rw [hs] at hf
  · exact absurd hf (by simp)
  · dsimp only at hf
    by_cases h8 : s ≥ 8
    · rw [if_pos h8] at hf
      have : (s, d) = sd := by injection hf
      rw [← this]
      exact h8
    · rw [if_neg h8] at hf
      exact absurd hf (by simp)

/-- C5: for every query with at least one scoring document, the content
search keeps only documents scoring at least 8, within 90 percent of the
top score, returns them sorted by score descending, and caps the
selection at 2 documents. -/
theorem C5_selection_pipeline (query : List Char) (docs : List DocRecord)
    (top : Nat × DocRecord) (rest : List (Nat × DocRecord))
    (h : sortedMatching query docs = top :: rest) :
    (∀ sd ∈ selectDocs query docs, 8 ≤ sd.1 ∧ 9 * top.1 ≤ 10 * sd.1) ∧
    List.Sorted (fun a b => b.1 ≤ a.1) (selectDocs query docs) ∧
    (selectDocs query docs).length ≤ 2 := by
  have hsorted : List.Sorted (fun a b => b.1 ≤ a.1) (sortedMatching query docs) :=
    List.sorted_insertionSort _ _
  have hsel : selectDocs query docs =
      (if (top :: rest).filter (fun sd => 10 * sd.1 ≥ 9 * top.1) = [] then [top]
       else (top :: rest).filter (fun sd => 10 * sd.1 ≥ 9 * top.1)).take 2 := by
    unfold selectDocs
    rw [h]
  have hscore : ∀ sd ∈ (top :: rest), 8 ≤ sd.1 := by
    intro sd hsd
    rw [← h] at hsd
    exact mem_matchingDocs_score _ _ docs sd
      ((List.perm_insertionSort _ _).mem_iff.mp hsd)
  refine ⟨?_, ?_, ?_⟩
  · intro sd hsd
    rw [hsel] at hsd
    have hsd2 := List.mem_of_mem_take hsd
    by_cases hF : (top :: rest).filter (fun sd => 10 * sd.1 ≥ 9 * top.1) = []
    · rw [if_pos hF] at hsd2
      have : sd = top := by simpa using hsd2
      rw [this]
      exact ⟨hscore top (List.mem_cons_self top rest), by omega⟩
    · rw [if_neg hF] at hsd2
      obtain ⟨hin, hpred⟩ := List.mem_filter.mp hsd2
      exact ⟨hscore sd hin, by simpa [ge_iff_le] using of_decide_eq_true hpred⟩
  · rw [hsel]
    have hbase : List.Sorted (fun a b => b.1 ≤ a.1)
        (if (top :: rest).filter (fun sd => 10 * sd.1 ≥ 9 * top.1) = [] then [top]
         else (top :: rest).filter (fun sd => 10 * sd.1 ≥ 9 * top.1)) := by
      by_cases hF : (top :: rest).filter (fun sd => 10 * sd.1 ≥ 9 * top.1) = []
      · rw [if_pos hF]
        exact List.sorted_singleton top
      · rw [if_neg hF]
        exact List.Pairwise.filter _ (h ▸ hsorted)
    exact List.Pairwise.sublist (List.take_sublist 2 _) hbase
  · rw [hsel]
    exact List.length_take_le 2 _

/-- Witness for C5: a one-document corpus matching the query "alpha"
exercises the selection pipeline; the selection stays within the cap. -/
theorem C5_witness : (selectDocs (lit "alpha") [c5doc]).length ≤ 2 :=
  (C5_selection_pipeline (lit "alpha") [c5doc] (25, c5doc) [] (by decide)).2.2

/-! #### C8: the no-match reply -/

/-- C8 counterexample: over an empty corpus the search returns the
"No workbook documents found." message, which does not contain the
literal phrase "No matches found", although the (vacuous) premise that
the query terms appear in no corpus document holds. -/
theorem C8_counterexample :
    search_workbooks_with_content (lit "zebra") 5 [] =
      lit "No workbook documents found." ∧
    containsSub (search_workbooks_with_content (lit "zebra") 5 [])
      (lit "No matches found") = false := by
  refine ⟨by decide, by decide⟩

/-- C8 (amended): over a nonempty corpus, a query none of whose key terms
occurs in any document content or filename, and which triggers the
date-prefix special case for no document, yields exactly the
"No matches found" reply listing up to 20 of the available filenames. -/
theorem C8_amended_no_match_reply (query : List Char) (limit : Nat)
    (docs : List DocRecord) (hne : docs ≠ [])
    (hterm : ∀ d ∈ docs,
      hasKeyTermB (keyTermsOf (lowerStr query)) (lowerStr d.content)
        (lowerStr d.filename) = false)
    (hdate : ((datePrefixOf (lowerStr query)).all
      (fun p => docs.all (fun d => !(p.isPrefixOf (lowerStr d.filename))))) = true) :
    search_workbooks_with_content query limit docs =
      lit "No matches found for '" ++ query ++
        lit "'.\n\nAvailable documents:\n" ++
        joinSep (lit "\n") ((docs.take 20).map
          (fun d => lit "- " ++ d.filename ++ lit " (" ++ d.workbook_name ++ lit ")")) := by
  have hscore : ∀ d ∈ docs,
      scoreDoc (lowerStr query) (keyTermsOf (lowerStr query)) d = none := by
    intro d hd
    simp only [scoreDoc, hterm d hd]
    cases hdp : datePrefixOf (lowerStr query) with
    | none => simp
    | some p =>
      rw [hdp] at hdate
      simp only [Option.all_some, List.all_eq_true] at hdate
      have := hdate d hd
      simp only [Bool.not_eq_true'] at this
      simp [this]
  have hmatch : matchingDocs (lowerStr query) (keyTermsOf (lowerStr query)) docs = [] := by
    unfold matchingDocs
    rw [List.filterMap_eq_nil_iff]
    intro d hd
    rw [hscore d hd]
  have hsm : sortedMatching query docs = [] := by
    unfold sortedMatching
    rw [hmatch]
    rfl
  unfold search_workbooks_with_content
  rw [if_neg hne, hsm]

/-- Witness for C8 (amended): a concrete one-document corpus with no
occurrence of the query term produces exactly the no-match reply. -/
theorem C8_witness :
    search_workbooks_with_content (lit "zebra") 5 [c8doc] =
      lit "No matches found for '" ++ lit "zebra" ++
        lit "'.\n\nAvailable documents:\n" ++
        joinSep (lit "\n") (([c8doc].take 20).map
          (fun d => lit "- " ++ d.filename ++ lit " (" ++ d.workbook_name ++ lit ")")) :=
  C8_amended_no_match_reply (lit "zebra") 5 [c8doc] (by decide) (by decide) (by decide)

/-! #### C6: chunk spacing and ordering -/

theorem natDist_symm (a b : Nat) : natDist a b = natDist b a := by
  unfold natDist
  omega

theorem eccOccs_inv (content : List Char) (size maxC : Nat) :
    ∀ occs cov ch,
      (∀ c ∈ ch, c.1 ∈ cov) →
      (∀ p ∈ cov, ∀ q ∈ cov, p ≠ q → size / 2 ≤ natDist p q) →
      (∀ c ∈ (eccOccs content size maxC occs cov ch).1,
        c.1 ∈ (eccOccs content size maxC occs cov ch).2) ∧
      (∀ p ∈ (eccOccs content size maxC occs cov ch).2,
        ∀ q ∈ (eccOccs content size maxC occs cov ch).2,
          p ≠ q → size / 2 ≤ natDist p q) := by
  intro occs
  induction occs with
  | nil =>
    intro cov ch h1 h2
    exact ⟨h1, h2⟩
  | cons pos rest ih =>
    intro cov ch h1 h2
    simp only [eccOccs]
    by_cases hskip : cov.any (fun c => natDist pos c < size / 2)
    · rw [if_pos hskip]
      exact ih cov ch h1 h2
    · rw [if_neg hskip]
      have hfar : ∀ c ∈ cov, size / 2 ≤ natDist pos c := by
        intro c hc
        by_contra hlt
        exact hskip (List.any_eq_true.mpr ⟨c, hc, decide_eq_true (Nat.not_le.mp hlt)⟩)
      have h2' : ∀ p ∈ (pos :: cov), ∀ q ∈ (pos :: cov),
          p ≠ q → size / 2 ≤ natDist p q := by
        intro p hp q hq hne
        rcases List.mem_cons.mp hp with hp | hp <;>
          rcases List.mem_cons.mp hq with hq | hq
        · exact absurd (hp.trans hq.symm) hne
        · rw [hp]
          exact hfar q hq
        · rw [hq, natDist_symm]
          exact hfar p hp
        · exact h2 p hp q hq hne
      have h1' : ∀ c ∈ ch ++ [(pos, chunkWindow content pos size)],
          c.1 ∈ pos :: cov := by
        intro c hc
        rcases List.mem_append.mp hc with hc | hc
        · exact List.mem_cons_of_mem _ (h1 c hc)
        · have : c = (pos, chunkWindow content pos size) := by simpa using hc
          rw [this]
          exact List.mem_cons_self _ _
      by_cases hstop : (ch ++ [(pos, chunkWindow content pos size)]).length ≥ maxC
      · rw [if_pos hstop]
        exact ⟨h1', h2'⟩
      · rw [if_neg hstop]
        exact ih _ _ h1' h2'

theorem eccTerms_far (contentL content : List Char) (size maxC : Nat) :
    ∀ (ts : List (List Char)) (cov : List Nat) (ch : List (Nat × List Char)),
      (∀ c ∈ ch, c.1 ∈ cov) →
      (∀ p ∈ cov, ∀ q ∈ cov, p ≠ q → size / 2 ≤ natDist p q) →
      ∃ cov2 : List Nat,
        (∀ c ∈ eccTerms contentL content size maxC ts cov ch, c.1 ∈ cov2) ∧
        (∀ p ∈ cov2, ∀ q ∈ cov2, p ≠ q → size / 2 ≤ natDist p q) := by
  intro ts
  induction ts with
  | nil =>
    intro cov ch h1 h2
    exact ⟨cov, h1, h2⟩
  | cons t ts ih =>
    intro cov ch h1 h2
    simp only [eccTerms]
    split
    · exact ih cov ch h1 h2
    · have hr := eccOccs_inv content size maxC (boundaryMatches contentL t) cov ch h1 h2
      by_cases hstop :
          (eccOccs content size maxC (boundaryMatches contentL t) cov ch).1.length ≥ maxC
      · rw [if_pos hstop]
        exact ⟨(eccOccs content size maxC (boundaryMatches contentL t) cov ch).2,
          hr.1, hr.2⟩
      · rw [if_neg hstop]
        exact ih _ _ hr.1 hr.2

/-- C6: for every content, key-term list, chunk size and chunk cap, any
two chunks returned by `extract_context_chunks` with distinct positions
lie at least `chunk_size/2` apart, and the returned list is sorted by
position in ascending document order. -/
theorem C6_chunk_spacing_and_order (content : List Char)
    (terms : List (List Char)) (size maxC : Nat) :
    (∀ c1 ∈ extract_context_chunks content terms size maxC,
      ∀ c2 ∈ extract_context_chunks content terms size maxC,
        c1.1 ≠ c2.1 → size / 2 ≤ natDist c1.1 c2.1) ∧
    List.Sorted (fun a b => a.1 ≤ b.1)
      (extract_context_chunks content terms size maxC) := by
  constructor
  · intro c1 h1 c2 h2 hne
    unfold extract_context_chunks at h1 h2
    have hm1 := (List.perm_insertionSort
      (fun (a b : Nat × List Char) => a.1 ≤ b.1) _).mem_iff.mp h1
    have hm2 := (List.perm_insertionSort
      (fun (a b : Nat × List Char) => a.1 ≤ b.1) _).mem_iff.mp h2
    obtain ⟨cov2, hc, hp⟩ := eccTerms_far (lowerStr content) content size maxC
      terms [] [] (by simp) (by simp)
    exact hp c1.1 (hc c1 hm1) c2.1 (hc c2 hm2) hne
  · exact List.sorted_insertionSort _ _

/-- Witness for C6: on the content "abc abc" with term "abc" and chunk
size 4, two chunks are returned at positions 0 and 4; they are at least
`4/2` apart and the list is position-sorted. -/
theorem C6_witness :
    4 / 2 ≤ natDist 0 4 ∧
    List.Sorted (fun a b => a.1 ≤ b.1)
      (extract_context_chunks (lit "abc abc") [lit "abc"] 4 5) :=
  ⟨(C6_chunk_spacing_and_order (lit "abc abc") [lit "abc"] 4 5).1
      (0, lit "abc...") (by decide) (4, lit "...c ab...") (by decide) (by decide),
    (C6_chunk_spacing_and_order (lit "abc abc") [lit "abc"] 4 5).2⟩

/-! #### C7: grep orchestration -/

theorem charToNat_inj {c1 c2 : Char} (h : c1.toNat = c2.toNat) : c1 = c2 :=
  Char.ofNat_toNat c1 ▸ Char.ofNat_toNat c2 ▸ congrArg Char.ofNat h

theorem strLtB_cons (p x : Char) (ps xs : List Char) :
    strLtB (p :: ps) (x :: xs) = true ↔
      (p.toNat < x.toNat ∨ (p.toNat = x.toNat ∧ strLtB ps xs = true)) := by
  simp only [strLtB]
  split_ifs with h1 h2
  · simp [h1]
  · constructor
    · intro h
      exact absurd h (by simp)
    · intro h
      rcases h with h | h
      · omega
      · omega
  · have hx : p.toNat = x.toNat := by omega
    simp [hx]

theorem strLtB_nil_cons (x : Char) (xs : List Char) :
    strLtB [] (x :: xs) = true := rfl

theorem strLtB_not_nil (a : List Char) : strLtB a [] = false := by
  cases a <;> rfl

theorem strLtB_irrefl : ∀ a : List Char, strLtB a a = false := by
  intro a
  induction a with
  | nil => rfl
  | cons c cs ih =>
    simp only [strLtB, Nat.lt_irrefl, if_false]
    exact ih

theorem strLtB_trans :
    ∀ a b c : List Char, strLtB a b = true → strLtB b c = true →
      strLtB a c = true := by
  intro a
  induction a with
  | nil =>
    intro b c hab hbc
    cases b with
    | nil => exact absurd hab (by rw [strLtB_not_nil]; simp)
    | cons x xs =>
      cases c with
      | nil => exact absurd hbc (by rw [strLtB_not_nil]; simp)
      | cons y ys => rfl
  | cons p ps ih =>
    intro b c hab hbc
    cases b with
    | nil => exact absurd hab (by rw [strLtB_not_nil]; simp)
    | cons x xs =>
      cases c with
      | nil => exact absurd hbc (by rw [strLtB_not_nil]; simp)
      | cons y ys =>
        rw [strLtB_cons] at hab hbc ⊢
        rcases hab with hab | hab <;> rcases hbc with hbc | hbc
        · exact Or.inl (by omega)
        · exact Or.inl (by omega)
        · exact Or.inl (by omega)
        · exact Or.inr ⟨by omega, ih xs ys hab.2 hbc.2⟩

theorem strLtB_trichotomy :
    ∀ a b : List Char, strLtB a b = true ∨ strLtB b a = true ∨ a = b := by
  intro a
  induction a with
  | nil =>
    intro b
    cases b with
    | nil => exact Or.inr (Or.inr rfl)
    | cons x xs => exact Or.inl rfl
  | cons p ps ih =>
    intro b
    cases b with
    | nil => exact Or.inr (Or.inl rfl)
    | cons x xs =>
      rcases Nat.lt_trichotomy p.toNat x.toNat with h | h | h
      · exact Or.inl ((strLtB_cons p x ps xs).mpr (Or.inl h))
      · rcases ih xs with h2 | h2 | h2
        · exact Or.inl ((strLtB_cons p x ps xs).mpr (Or.inr ⟨h, h2⟩))
        · exact Or.inr (Or.inl ((strLtB_cons x p xs ps).mpr (Or.inr ⟨h.symm, h2⟩)))
        · exact Or.inr (Or.inr (by rw [charToNat_inj h, h2]))
      · exact Or.inr (Or.inl ((strLtB_cons x p xs ps).mpr (Or.inl h)))

theorem strLtB_asymm {a b : List Char} (h : strLtB a b = true) :
    strLtB b a = false := by
  by_contra hc
  have hba : strLtB b a = true := by
    cases hv : strLtB b a
    · exact absurd hv hc
    · rfl
  have := strLtB_trans a b a h hba
  rw [strLtB_irrefl] at this
  exact absurd this (by simp)

theorem strLeB_iff (a b : List Char) :
    strLeB a b = true ↔ (strLtB a b = true ∨ a = b) := by
  simp [strLeB]

theorem keyLeB_iff (d1 d2 : DocRecord) :
    keyLeB d1 d2 = true ↔
      (strLtB d1.workbook_id d2.workbook_id = true ∨
        (d1.workbook_id = d2.workbook_id ∧
          (strLtB d1.path d2.path = true ∨
            (d1.path = d2.path ∧ strLeB d1.filename d2.filename = true)))) := by
  simp [keyLeB]

theorem keyLeB_total (d1 d2 : DocRecord) :
    keyLeB d1 d2 = true ∨ keyLeB d2 d1 = true := by
  rw [keyLeB_iff, keyLeB_iff]
  rcases strLtB_trichotomy d1.workbook_id d2.workbook_id with h | h | h
  · exact Or.inl (Or.inl h)
  · exact Or.inr (Or.inl h)
  · rcases strLtB_trichotomy d1.path d2.path with h2 | h2 | h2
    · exact Or.inl (Or.inr ⟨h, Or.inl h2⟩)
    · exact Or.inr (Or.inr ⟨h.symm, Or.inl h2⟩)
    · rcases strLtB_trichotomy d1.filename d2.filename with h3 | h3 | h3
      · exact Or.inl (Or.inr ⟨h, Or.inr ⟨h2, (strLeB_iff _ _).mpr (Or.inl h3)⟩⟩)
      · exact Or.inr (Or.inr ⟨h.symm, Or.inr ⟨h2.symm, (strLeB_iff _ _).mpr (Or.inl h3)⟩⟩)
      · exact Or.inl (Or.inr ⟨h, Or.inr ⟨h2, (strLeB_iff _ _).mpr (Or.inr h3)⟩⟩)

theorem keyLeB_trans (d1 d2 d3 : DocRecord) (h12 : keyLeB d1 d2 = true)
    (h23 : keyLeB d2 d3 = true) : keyLeB d1 d3 = true := by
  rw [keyLeB_iff] at h12 h23 ⊢
  rcases h12 with h12 | ⟨he12, h12⟩
  · rcases h23 with h23 | ⟨he23, h23⟩
    · exact Or.inl (strLtB_trans _ _ _ h12 h23)
    · exact Or.inl (he23 ▸ h12)
  · rcases h23 with h23 | ⟨he23, h23⟩
    · exact Or.inl (he12 ▸ h23)
    · refine Or.inr ⟨he12.trans he23, ?_⟩
      rcases h12 with h12 | ⟨hp12, h12⟩
      · rcases h23 with h23 | ⟨hp23, h23⟩
        · exact Or.inl (strLtB_trans _ _ _ h12 h23)
        · exact Or.inl (hp23 ▸ h12)
      · rcases h23 with h23 | ⟨hp23, h23⟩
        · exact Or.inl (hp12 ▸ h23)
        · refine Or.inr ⟨hp12.trans hp23, ?_⟩
          rcases (strLeB_iff _ _).mp h12 with h12 | h12
          · rcases (strLeB_iff _ _).mp h23 with h23 | h23
            · exact (strLeB_iff _ _).mpr (Or.inl (strLtB_trans _ _ _ h12 h23))
            · exact (strLeB_iff _ _).mpr (Or.inl (h23 ▸ h12))
          · exact h12 ▸ h23

theorem litScanGo_length (hay nee : List Char) :
    ∀ fuel i rem, (litScanGo hay nee i rem fuel).length ≤ rem := by
  intro fuel
  induction fuel with
  | zero =>
    intro i rem
    cases rem <;> simp [litScanGo]
  | succ fuel ih =>
    intro i rem
    cases rem with
    | zero => simp [litScanGo]
    | succ rem =>
      simp only [litScanGo]
      cases strFind hay nee i with
      | none => simp
      | some idx =>
        simpa using Nat.succ_le_succ (ih (idx + nee.length) rem)

theorem iterGrepMatches_length (finditer : Bool → List Char → List (Nat × Nat))
    (content pat : List Char) (regex caseSensitive : Bool) (maxMatches : Nat) :
    (iterGrepMatches finditer content pat regex caseSensitive maxMatches).length ≤
      maxMatches := by
  unfold iterGrepMatches
  by_cases hp : pat = []
  · simp [hp]
  · rw [if_neg hp]
    simp only [enrichMatches, List.length_map]
    by_cases hr : regex
    · simp only [hr, if_true]
      exact List.length_take_le _ _
    · simp only [hr, if_false]
      exact litScanGo_length _ _ _ _ _

theorem grepScan_results (finditer : Bool → List Char → List (Nat × Nat))
    (pat : List Char) (regex caseSensitive : Bool) (maxResults : Int)
    (perFile : Nat) :
    ∀ (docs : List DocRecord) (acc : List FileResult),
      ∃ picked : List DocRecord,
        picked.Sublist docs ∧
        (grepScan finditer pat regex caseSensitive maxResults perFile docs acc).1 =
          acc ++ picked.map (fun d => mkFileResult d
            (iterGrepMatches finditer d.content pat regex caseSensitive perFile)) ∧
        (∀ d ∈ picked,
          docMatchesB finditer pat regex caseSensitive perFile d = true) := by
  intro docs
  induction docs with
  | nil =>
    intro acc
    exact ⟨[], List.Sublist.refl [], by simp [grepScan], by simp⟩
  | cons d rest ih =>
    intro acc
    simp only [grepScan]
    by_cases hcap : (acc.length : Int) ≥ maxResults
    · rw [if_pos hcap]
      exact ⟨[], List.nil_sublist _, by simp, by simp⟩
    · rw [if_neg hcap]
      by_cases hc : d.content = []
      · rw [if_pos hc]
        obtain ⟨picked, hs, he, hm⟩ := ih acc
        exact ⟨picked, hs.cons d, he, hm⟩
      · rw [if_neg hc]
        cases hms : iterGrepMatches finditer d.content pat regex caseSensitive perFile with
        | nil =>
          obtain ⟨picked, hs, he, hm⟩ := ih acc
          exact ⟨picked, hs.cons d, he, hm⟩
        | cons m ms =>
          obtain ⟨picked, hs, he, hm⟩ :=
            ih (acc ++ [mkFileResult d (m :: ms)])
          refine ⟨d :: picked, hs.cons₂ d, ?_, ?_⟩
          · rw [he, List.map_cons, hms]
            simp
          · intro d2 hd2
            rcases List.mem_cons.mp hd2 with hd2 | hd2
            · rw [hd2]
              unfold docMatchesB
              rw [hms]
              simp [hc]
            · exact hm d2 hd2

theorem grepScan_length (finditer : Bool → List Char → List (Nat × Nat))
    (pat : List Char) (regex caseSensitive : Bool) (maxResults : Int)
    (perFile : Nat) :
    ∀ (docs : List DocRecord) (acc : List FileResult),
      (acc.length : Int) ≤ maxResults →
      (((grepScan finditer pat regex caseSensitive maxResults perFile docs acc).1.length : Int) ≤
        maxResults) := by
  intro docs
  induction docs with
  | nil =>
    intro acc hacc
    simpa [grepScan] using hacc
  | cons d rest ih =>
    intro acc hacc
    simp only [grepScan]
    by_cases hcap : (acc.length : Int) ≥ maxResults
    · rw [if_pos hcap]
      exact hacc
    · rw [if_neg hcap]
      by_cases hc : d.content = []
      · rw [if_pos hc]
        exact ih acc hacc
      · rw [if_neg hc]
        cases hms : iterGrepMatches finditer d.content pat regex caseSensitive perFile with
        | nil => exact ih acc hacc
        | cons m ms =>
          apply ih
          have : ¬ ((acc.length : Int) ≥ maxResults) := hcap
          simp only [List.length_append, List.length_cons, List.length_nil]
          push_cast
          omega

theorem grepScan_trunc (finditer : Bool → List Char → List (Nat × Nat))
    (pat : List Char) (regex caseSensitive : Bool) (maxResults : Int)
    (perFile : Nat) :
    ∀ (docs : List DocRecord) (acc : List FileResult),
      ((grepScan finditer pat regex caseSensitive maxResults perFile docs acc).2 = true ↔
        ∃ ds1 d ds2, docs = ds1 ++ d :: ds2 ∧
          maxResults ≤ ((acc.length : Int) +
            (ds1.countP (docMatchesB finditer pat regex caseSensitive perFile) : Int))) := by
  intro docs
  induction docs with
  | nil =>
    intro acc
    constructor
    · intro h
      exact absurd h (by simp [grepScan])
    · rintro ⟨ds1, d, ds2, h, -⟩
      exact absurd h.symm (by simp)
  | cons d rest ih =>
    intro acc
    simp only [grepScan]
    by_cases hcap : (acc.length : Int) ≥ maxResults
    · rw [if_pos hcap]
      simp only [true_iff]
      exact ⟨[], d, rest, rfl, by simpa using hcap⟩
    · rw [if_neg hcap]
      have hsplit : ∀ acc2 : List FileResult,
          ((∃ ds1 d2 ds2, rest = ds1 ++ d2 :: ds2 ∧
            maxResults ≤ ((acc2.length : Int) +
              (ds1.countP (docMatchesB finditer pat regex caseSensitive perFile) : Int))) ↔
          (∃ ds1 d2 ds2, d :: rest = ds1 ++ d2 :: ds2 ∧
            maxResults ≤ ((acc.length : Int) +
              (ds1.countP (docMatchesB finditer pat regex caseSensitive perFile) : Int)))) →
          (((grepScan finditer pat regex caseSensitive maxResults perFile rest acc2).2 = true ↔
            (∃ ds1 d2 ds2, d :: rest = ds1 ++ d2 :: ds2 ∧
              maxResults ≤ ((acc.length : Int) +
                (ds1.countP (docMatchesB finditer pat regex caseSensitive perFile) : Int))))) := by
        intro acc2 hiff
        rw [ih acc2]
        exact hiff
      by_cases hc : d.content = []
      · rw [if_pos hc]
        apply hsplit acc
        have hdm : docMatchesB finditer pat regex caseSensitive perFile d = false := by
          unfold docMatchesB
          simp [hc]
        constructor
        · rintro ⟨ds1, d2, ds2, hrest, hle⟩
          refine ⟨d :: ds1, d2, ds2, by rw [hrest]; rfl, ?_⟩
          rw [List.countP_cons, hdm]
          simpa using hle
        · rintro ⟨ds1, d2, ds2, heq, hle⟩
          cases ds1 with
          | nil =>
            simp only [List.nil_append, List.cons.injEq] at heq
            rw [List.countP_nil] at hle
            exact absurd (by simpa using hle) hcap
          | cons e es =>
            simp only [List.cons_append, List.cons.injEq] at heq
            refine ⟨es, d2, ds2, heq.2, ?_⟩
            rw [← heq.1] at hle
            rw [List.countP_cons, hdm] at hle
            simpa using hle
      · rw [if_neg hc]
        cases hms : iterGrepMatches finditer d.content pat regex caseSensitive perFile with
        | nil =>
          apply hsplit acc
          have hdm : docMatchesB finditer pat regex caseSensitive perFile d = false := by
            unfold docMatchesB
            rw [hms]
            simp
          constructor
          · rintro ⟨ds1, d2, ds2, hrest, hle⟩
            refine ⟨d :: ds1, d2, ds2, by rw [hrest]; rfl, ?_⟩
            rw [List.countP_cons, hdm]
            simpa using hle
          · rintro ⟨ds1, d2, ds2, heq, hle⟩
            cases ds1 with
            | nil =>
              simp only [List.nil_append, List.cons.injEq] at heq
              rw [List.countP_nil] at hle
              exact absurd (by simpa using hle) hcap
            | cons e es =>
              simp only [List.cons_append, List.cons.injEq] at heq
              refine ⟨es, d2, ds2, heq.2, ?_⟩
              rw [← heq.1] at hle
              rw [List.countP_cons, hdm] at hle
              simpa using hle
        | cons m ms =>
          apply hsplit (acc ++ [mkFileResult d (m :: ms)])
          have hdm : docMatchesB finditer pat regex caseSensitive perFile d = true := by
            unfold docMatchesB
            rw [hms]
            simp [hc]
          constructor
          · rintro ⟨ds1, d2, ds2, hrest, hle⟩
            refine ⟨d :: ds1, d2, ds2, by rw [hrest]; rfl, ?_⟩
            rw [List.countP_cons, hdm]
            simp only [List.length_append, List.length_cons, List.length_nil] at hle
            simp only [if_true, ite_true]
            push_cast at hle ⊢
            omega
          · rintro ⟨ds1, d2, ds2, heq, hle⟩
            cases ds1 with
            | nil =>
              simp only [List.nil_append, List.cons.injEq] at heq
              rw [List.countP_nil] at hle
              exact absurd (by simpa using hle) hcap
            | cons e es =>
              simp only [List.cons_append, List.cons.injEq] at heq
              refine ⟨es, d2, ds2, heq.2, ?_⟩
              rw [← heq.1] at hle
              rw [List.countP_cons, hdm] at hle
              simp only [if_true, ite_true] at hle
              simp only [List.length_append, List.length_cons, List.length_nil]
              push_cast at hle ⊢
              omega

/-- C7 counterexample: with `max_results = 1` over a corpus whose only
matching record is `c7docA`, every matching file is emitted, yet the
`truncated` flag is still set (the scan stopped before examining
`c7docB`, a record with no matches) — so `truncated` is not "true exactly
when the scan was cut short before emitting all matching files". -/
theorem C7_counterexample :
    grep_workbooks noRegex [c7docA, c7docB] (lit "foo") false false 1 20 =
      Except.ok c7out ∧
    c7out.truncated = true ∧
    c7out.results.map (fun r => r.filename) = [lit "a.txt"] ∧
    docMatchesB noRegex (lit "foo") false false 20 c7docA = true ∧
    docMatchesB noRegex (lit "foo") false false 20 c7docB = false := by
  refine ⟨by decide, by decide, by decide, by decide, by decide⟩

/-- C7 (amended): for every grep request with positive `max_results` and
`max_matches_per_file` and a pattern within the length cap, the per-file
results are emitted in ascending (workbook_id, path, filename) order,
each carries between 1 and `max_matches_per_file` matches (files with
zero matches are omitted), at most `max_results` file results are
returned, and `truncated` is true exactly when the emitted-file count
reached `max_results` while at least one sorted record was left
unexamined — which can happen even when every matching file was already
emitted. -/
theorem C7_amended_grep_orchestration
    (finditer : Bool → List Char → List (Nat × Nat)) (docs : List DocRecord)
    (pat : List Char) (regex caseSensitive : Bool)
    (maxResults maxMatchesPerFile : Int) (out : GrepOutput)
    (hmr : 1 ≤ maxResults) (hmpf : 1 ≤ maxMatchesPerFile)
    (hlen : pat.length ≤ 500)
    (hok : grep_workbooks finditer docs pat regex caseSensitive maxResults
      maxMatchesPerFile = Except.ok out) :
    out.results.Pairwise (fun r1 r2 => resKeyLeB r1 r2 = true) ∧
    (∀ r ∈ out.results, 1 ≤ r.match_count ∧
      (r.match_count : Int) ≤ maxMatchesPerFile ∧
      r.match_count = r.matchList.length) ∧
    (out.results.length : Int) ≤ maxResults ∧
    (out.truncated = true ↔ ∃ ds1 d ds2,
      List.insertionSort (fun d1 d2 => keyLeB d1 d2 = true) docs =
        ds1 ++ d :: ds2 ∧
      maxResults ≤ (ds1.countP
        (docMatchesB finditer pat regex caseSensitive maxMatchesPerFile.toNat) : Int)) := by
  haveI instTot : IsTotal DocRecord (fun d1 d2 => keyLeB d1 d2 = true) :=
    ⟨fun a b => keyLeB_total a b⟩
  haveI instTrans : IsTrans DocRecord (fun d1 d2 => keyLeB d1 d2 = true) :=
    ⟨fun a b c => keyLeB_trans a b c⟩
  have h1 : ¬ maxResults ≤ 0 := by omega
  have h2 : ¬ pat.length > 500 := by omega
  have hpf : ¬ maxMatchesPerFile ≤ 0 := by omega
  simp only [grep_workbooks, h1, h2, hpf, if_false] at hok
  injection hok with hout
  subst hout
  dsimp only
  set sortedDocs :=
    List.insertionSort (fun d1 d2 => keyLeB d1 d2 = true) docs with hsd
  have hsorted : List.Pairwise (fun d1 d2 => keyLeB d1 d2 = true) sortedDocs :=
    List.sorted_insertionSort _ _
  obtain ⟨picked, hsub, hres, hmm⟩ := grepScan_results finditer pat regex
    caseSensitive maxResults maxMatchesPerFile.toNat sortedDocs []
  refine ⟨?_, ?_, ?_, ?_⟩
  · simp only [hres, List.nil_append]
    refine List.Pairwise.map _ ?_ (List.Pairwise.sublist hsub hsorted)
    intro a b hab
    exact hab
  · intro r hr
    simp only [hres, List.nil_append, List.mem_map] at hr
    obtain ⟨d, hd, hfd⟩ := hr
    have hdm := hmm d hd
    unfold docMatchesB at hdm
    simp only [Bool.and_eq_true, decide_eq_true_eq] at hdm
    rw [← hfd]
    refine ⟨?_, ?_, rfl⟩
    · simp only [mkFileResult]
      have := List.length_pos.mpr hdm.2
      omega
    · simp only [mkFileResult]
      have hbound := iterGrepMatches_length finditer d.content pat regex
        caseSensitive maxMatchesPerFile.toNat
      have : (maxMatchesPerFile.toNat : Int) = maxMatchesPerFile := by omega
      omega
  · exact grepScan_length finditer pat regex caseSensitive maxResults
      maxMatchesPerFile.toNat sortedDocs []
      (by simp only [List.length_nil, Nat.cast_zero]; omega)
  · rw [grepScan_trunc]
    simp

/-- Witness for C7 (amended): the concrete C7 scenario satisfies the
hypotheses; the file-result count respects `max_results = 1`. -/
theorem C7_witness : (c7out.results.length : Int) ≤ 1 :=
  (C7_amended_grep_orchestration noRegex [c7docA, c7docB] (lit "foo")
    false false 1 20 c7out (by decide) (by decide) (by decide)
    (by decide)).2.2.1

/-! #### C2: literal vs regex grep for the pattern "foo.bar" -/

theorem occursAtB_getElem {hay pat : List Char} {i : Nat}
    (h : occursAtB hay pat i = true) :
    ∀ d, d < pat.length → hay[i + d]? = pat[d]? := by
  intro d hd
  have heq : (hay.drop i).take pat.length = pat := by
    exact beq_iff_eq.mp h
  calc hay[i + d]? = (hay.drop i)[d]? := (List.getElem?_drop hay i d).symm
    _ = ((hay.drop i).take pat.length)[d]? := by
        rw [List.getElem?_take]
        rw [if_pos hd]
    _ = pat[d]? := by rw [heq]

theorem occursAtB_le {hay pat : List Char} {i : Nat} (hne : pat ≠ [])
    (h : occursAtB hay pat i = true) : i + pat.length ≤ hay.length := by
  have heq : (hay.drop i).take pat.length = pat := by
    exact beq_iff_eq.mp h
  have hlen := congrArg List.length heq
  simp only [List.length_take, List.length_drop] at hlen
  have hpos : 0 < pat.length := List.length_pos.mpr hne
  omega

theorem strFindGo_some (hay pat : List Char) :
    ∀ fuel i idx, strFindGo hay pat i fuel = some idx →
      i ≤ idx ∧ occursAtB hay pat idx = true ∧
        ∀ j, i ≤ j → j < idx → occursAtB hay pat j = false := by
  intro fuel
  induction fuel with
  | zero =>
    intro i idx h
    exact absurd h (by simp [strFindGo])
  | succ fuel ih =>
    intro i idx h
    simp only [strFindGo] at h
    by_cases hocc : occursAtB hay pat i = true
    · rw [if_pos hocc] at h
      have : i = idx := by injection h
      rw [← this]
      exact ⟨Nat.le_refl i, hocc, fun j h1 h2 => absurd (Nat.lt_of_le_of_lt h1 h2)
        (Nat.lt_irrefl i)⟩
    · rw [if_neg hocc] at h
      obtain ⟨h1, h2, h3⟩ := ih (i + 1) idx h
      refine ⟨by omega, h2, ?_⟩
      intro j hj1 hj2
      by_cases hji : j = i
      · rw [hji]
        cases hv : occursAtB hay pat i
        · rfl
        · exact absurd hv hocc
      · exact h3 j (by omega) hj2

theorem strFindGo_none (hay pat : List Char) :
    ∀ fuel i, strFindGo hay pat i fuel = none →
      ∀ j, i ≤ j → j < i + fuel → occursAtB hay pat j = false := by
  intro fuel
  induction fuel with
  | zero =>
    intro i _ j h1 h2
    omega
  | succ fuel ih =>
    intro i h j h1 h2
    simp only [strFindGo] at h
    by_cases hocc : occursAtB hay pat i = true
    · rw [if_pos hocc] at h
      exact absurd h (by simp)
    · rw [if_neg hocc] at h
      by_cases hji : j = i
      · rw [hji]
        cases hv : occursAtB hay pat i
        · rfl
        · exact absurd hv hocc
      · exact ih (i + 1) h j (by omega) (by omega)

theorem strFind_none {hay pat : List Char} {start : Nat} (hne : pat ≠ [])
    (h : strFind hay pat start = none) :
    ∀ j, start ≤ j → occursAtB hay pat j = false := by
  intro j hj
  by_cases hjl : j < start + (hay.length + 1 - start)
  · exact strFindGo_none hay pat _ start h j hj hjl
  · cases hv : occursAtB hay pat j
    · rfl
    · have := occursAtB_le hne hv
      have hpos : 0 < pat.length := List.length_pos.mpr hne
      omega

theorem strFind_some {hay pat : List Char} {start idx : Nat}
    (h : strFind hay pat start = some idx) :
    start ≤ idx ∧ occursAtB hay pat idx = true ∧
      ∀ j, start ≤ j → j < idx → occursAtB hay pat j = false :=
  strFindGo_some hay pat _ start idx h

theorem litScanGo_shape (hay nee : List Char) :
    ∀ fuel i rem p, p ∈ litScanGo hay nee i rem fuel →
      p.2 = p.1 + nee.length := by
  intro fuel
  induction fuel with
  | zero =>
    intro i rem p hp
    cases rem <;> simp [litScanGo] at hp
  | succ fuel ih =>
    intro i rem p hp
    cases rem with
    | zero => simp [litScanGo] at hp
    | succ rem =>
      simp only [litScanGo] at hp
      cases hf : strFind hay nee i with
      | none => rw [hf] at hp; simp at hp
      | some idx =>
        rw [hf] at hp
        rcases List.mem_cons.mp hp with hp | hp
        · rw [hp]
        · exact ih _ _ p hp

theorem litScanGo_mem (hay nee : List Char) (hne : nee ≠ [])
    (hno : ∀ i j, occursAtB hay nee i = true → occursAtB hay nee j = true →
      i < j → i + nee.length ≤ j) :
    ∀ fuel i rem j, hay.length + 1 ≤ i + fuel → hay.length + 1 ≤ i + rem →
      ((j, j + nee.length) ∈ litScanGo hay nee i rem fuel ↔
        (i ≤ j ∧ occursAtB hay nee j = true)) := by
  have hnpos : 0 < nee.length := List.length_pos.mpr hne
  intro fuel
  induction fuel with
  | zero =>
    intro i rem j hfuel _
    constructor
    · intro hmem
      cases rem <;> simp [litScanGo] at hmem
    · rintro ⟨hij, hocc⟩
      have := occursAtB_le hne hocc
      omega
  | succ fuel ih =>
    intro i rem j hfuel hrem
    cases rem with
    | zero =>
      constructor
      · intro hmem
        simp [litScanGo] at hmem
      · rintro ⟨hij, hocc⟩
        have := occursAtB_le hne hocc
        omega
    | succ rem =>
      simp only [litScanGo]
      cases hf : strFind hay nee i with
      | none =>
        constructor
        · intro hmem
          simp at hmem
        · rintro ⟨hij, hocc⟩
          have := strFind_none hne hf j hij
          rw [this] at hocc
          exact absurd hocc (by simp)
      | some idx =>
        obtain ⟨hidx1, hidx2, hmin⟩ := strFind_some hf
        have hih := ih (idx + nee.length) rem j (by omega) (by omega)
        constructor
        · intro hmem
          rcases List.mem_cons.mp hmem with hp | hp
          · have hj : j = idx := by
              have := congrArg Prod.fst hp
              simpa using this
            rw [hj]
            exact ⟨hidx1, hidx2⟩
          · obtain ⟨hj1, hj2⟩ := hih.mp hp
            exact ⟨by omega, hj2⟩
        · rintro ⟨hij, hocc⟩
          by_cases hjidx : j = idx
          · rw [hjidx]
            exact List.mem_cons_self _ _
          · have hlt : idx ≤ j := by
              by_contra hc
              have := hmin j hij (by omega)
              rw [this] at hocc
              exact absurd hocc (by simp)
            have : idx < j := by omega
            have hstep := hno idx j hidx2 hocc this
            exact List.mem_cons_of_mem _ (hih.mpr ⟨hstep, hocc⟩)

theorem goFinditer_length (m : Nat → Bool) (len w : Nat) :
    ∀ fuel i, (goFinditer m len w i fuel).length ≤ fuel := by
  intro fuel
  induction fuel with
  | zero => intro i; simp [goFinditer]
  | succ fuel ih =>
    intro i
    simp only [goFinditer]
    by_cases h1 : i > len
    · simp [h1]
    · rw [if_neg h1]
      by_cases h2 : m i = true
      · rw [if_pos h2]
        simpa using Nat.succ_le_succ (ih (i + w))
      · rw [if_neg h2]
        exact Nat.le_trans (ih (i + 1)) (Nat.le_succ fuel)

theorem goFinditer_mem (m : Nat → Bool) (len w : Nat) (hw : 1 ≤ w)
    (hno : ∀ i j, m i = true → m j = true → i < j → i + w ≤ j)
    (hmb : ∀ i, m i = true → i ≤ len) :
    ∀ fuel i j, len + 1 ≤ i + fuel →
      (j ∈ goFinditer m len w i fuel ↔ (i ≤ j ∧ m j = true)) := by
  intro fuel
  induction fuel with
  | zero =>
    intro i j hfuel
    constructor
    · intro hmem
      simp [goFinditer] at hmem
    · rintro ⟨hij, hmj⟩
      have := hmb j hmj
      omega
  | succ fuel ih =>
    intro i j hfuel
    simp only [goFinditer]
    by_cases h1 : i > len
    · rw [if_pos h1]
      constructor
      · intro hmem
        simp at hmem
      · rintro ⟨hij, hmj⟩
        have := hmb j hmj
        omega
    · rw [if_neg h1]
      by_cases h2 : m i = true
      · rw [if_pos h2]
        have hih := ih (i + w) j (by omega)
        constructor
        · intro hmem
          rcases List.mem_cons.mp hmem with hp | hp
          · rw [hp]
            exact ⟨Nat.le_refl i, h2⟩
          · obtain ⟨hj1, hj2⟩ := hih.mp hp
            exact ⟨by omega, hj2⟩
        · rintro ⟨hij, hmj⟩
          by_cases hji : j = i
          · rw [hji]
            exact List.mem_cons_self _ _
          · have : i < j := by omega
            exact List.mem_cons_of_mem _
              (hih.mpr ⟨hno i j h2 hmj this, hmj⟩)
      · rw [if_neg h2]
        have hih := ih (i + 1) j (by omega)
        rw [hih]
        constructor
        · rintro ⟨hij, hmj⟩
          exact ⟨by omega, hmj⟩
        · rintro ⟨hij, hmj⟩
          refine ⟨?_, hmj⟩
          by_cases hji : j = i
          · rw [hji] at hmj
            exact absurd hmj (by simp [h2])
          · omega

theorem fooDotBar_lit_noOverlap (hay : List Char) :
    ∀ i j, occursAtB hay (lit "foo.bar") i = true →
      occursAtB hay (lit "foo.bar") j = true → i < j → i + 7 ≤ j := by
  intro i j hi hj hij
  by_contra hc
  obtain ⟨k, hk1, hk6, rfl⟩ : ∃ k, 1 ≤ k ∧ k ≤ 6 ∧ j = i + k :=
    ⟨j - i, by omega, by omega, by omega⟩
  have hjf : hay[i + k]? = some 'f' := by
    have := occursAtB_getElem hj 0 (by decide)
    simpa using this
  have hik : hay[i + k]? = (lit "foo.bar")[k]? :=
    occursAtB_getElem hi k
      (by rw [show (lit "foo.bar").length = 7 from by decide]; omega)
  rw [hjf] at hik
  interval_cases k
  · exact absurd hik (by decide)
  · exact absurd hik (by decide)
  · exact absurd hik (by decide)
  · exact absurd hik (by decide)
  · exact absurd hik (by decide)
  · exact absurd hik (by decide)

theorem fooDotBarAt_spec {s : List Char} {i : Nat} (h : fooDotBarAt s i = true) :
    s[i]? = some 'f' ∧ s[i + 1]? = some 'o' ∧ s[i + 2]? = some 'o' ∧
      s[i + 4]? = some 'b' ∧ s[i + 5]? = some 'a' ∧ s[i + 6]? = some 'r' := by
  unfold fooDotBarAt at h
  simp only [Bool.and_eq_true, beq_iff_eq] at h
  exact ⟨h.1.1.1.1.1.1, h.1.1.1.1.1.2, h.1.1.1.1.2, h.1.1.2, h.1.2, h.2⟩

theorem fooDotBar_re_noOverlap (s : List Char) :
    ∀ i j, fooDotBarAt s i = true → fooDotBarAt s j = true →
      i < j → i + 7 ≤ j := by
  intro i j hi hj hij
  by_contra hc
  obtain ⟨k, hk1, hk6, rfl⟩ : ∃ k, 1 ≤ k ∧ k ≤ 6 ∧ j = i + k :=
    ⟨j - i, by omega, by omega, by omega⟩
  obtain ⟨hi0, hi1, hi2, hi4, hi5, hi6⟩ := fooDotBarAt_spec hi
  obtain ⟨hj0, hj1, _, _, _, _⟩ := fooDotBarAt_spec hj
  interval_cases k
  · exact absurd (hi1.symm.trans hj0) (by decide)
  · exact absurd (hi2.symm.trans hj0) (by decide)
  · exact absurd (hi4.symm.trans hj1) (by decide)
  · exact absurd (hi4.symm.trans hj0) (by decide)
  · exact absurd (hi5.symm.trans hj0) (by decide)
  · exact absurd (hi6.symm.trans hj0) (by decide)

theorem fooDotBarAt_le {s : List Char} {i : Nat}
    (h : fooDotBarAt s i = true) : i ≤ s.length := by
  obtain ⟨hi0, _, _, _, _, _⟩ := fooDotBarAt_spec h
  have : i < s.length := by
    by_contra hc
    rw [List.getElem?_eq_none (by omega)] at hi0
    exact absurd hi0 (by simp)
  omega

theorem enrich_starts (content : List Char) (ms : List (Nat × Nat)) :
    (enrichMatches content ms).map GrepMatch.start = ms.map Prod.fst := by
  unfold enrichMatches
  rw [List.map_map]
  rfl

/-- C2 counterexample: the content "foo\nbar" contains "foo" followed by
a single character followed by "bar", yet grep with regex=true and
pattern "foo.bar" reports no match (Python's `.` never matches a
newline without `re.DOTALL`), refuting "matches any occurrence of foo
followed by any single character followed by bar". -/
theorem C2_counterexample :
    lit "foo\nbar" = lit "foo" ++ ['\n'] ++ lit "bar" ∧
    iterGrepMatches reFooDotBar (lit "foo\nbar") (lit "foo.bar") true false 20 =
      [] := by
  refine ⟨by decide, by decide⟩

/-- C2 (amended): for every content string and a match cap exceeding the
content length, grep for "foo.bar" with the default case-insensitive
matching reports (as match starts) with regex=false exactly the offsets
where "foo.bar" occurs literally in the lowercased content, and with
regex=true exactly the offsets where "foo" followed by one non-newline
character followed by "bar" occurs in the lowercased content. -/
theorem C2_amended_literal_vs_regex (content : List Char) (maxM : Nat)
    (h : content.length < maxM) :
    (∀ j, (j ∈ (iterGrepMatches reFooDotBar content (lit "foo.bar") false false
        maxM).map GrepMatch.start) ↔
      occursAtB (lowerStr content) (lit "foo.bar") j = true) ∧
    (∀ j, (j ∈ (iterGrepMatches reFooDotBar content (lit "foo.bar") true false
        maxM).map GrepMatch.start) ↔
      fooDotBarAt (lowerStr content) j = true) := by
  have hlen : (lowerStr content).length = content.length := by
    simp [lowerStr]
  have hpat : (lit "foo.bar") ≠ ([] : List Char) := by decide
  have h7 : (lit "foo.bar").length = 7 := by decide
  have hlow : lowerStr (lit "foo.bar") = lit "foo.bar" := by decide
  constructor
  · intro j
    have hred : iterGrepMatches reFooDotBar content (lit "foo.bar") false false maxM =
        enrichMatches content (litScan (lowerStr content) (lit "foo.bar") maxM) := by
      unfold iterGrepMatches
      rw [if_neg hpat]
      simp only [Bool.false_eq_true, if_false]
      rw [hlow]
    rw [hred, enrich_starts]
    have hmem := litScanGo_mem (lowerStr content) (lit "foo.bar") hpat
      (fun i j2 hi hj2 hij => by
        rw [h7]
        exact fooDotBar_lit_noOverlap (lowerStr content) i j2 hi hj2 hij)
      ((lowerStr content).length + 1) 0 maxM j
      (by omega) (by rw [hlen]; omega)
    constructor
    · intro hj
      obtain ⟨p, hp, hpj⟩ := List.mem_map.mp hj
      obtain ⟨p1, p2⟩ := p
      have hshape := litScanGo_shape (lowerStr content) (lit "foo.bar")
        ((lowerStr content).length + 1) 0 maxM (p1, p2) hp
      simp only at hpj hshape
      subst hpj
      rw [hshape] at hp
      exact (hmem.mp hp).2
    · intro hocc
      apply List.mem_map.mpr
      exact ⟨(j, j + (lit "foo.bar").length), hmem.mpr ⟨Nat.zero_le j, hocc⟩, rfl⟩
  · intro j
    have hred : iterGrepMatches reFooDotBar content (lit "foo.bar") true false maxM =
        enrichMatches content ((reFooDotBar false content).take maxM) := by
      unfold iterGrepMatches
      rw [if_neg hpat]
      simp only [if_true]
    have htake : (reFooDotBar false content).take maxM = reFooDotBar false content := by
      apply List.take_of_length_le
      unfold reFooDotBar finditerFixed
      rw [List.length_map]
      exact Nat.le_trans (goFinditer_length _ _ _ _ _) (by omega)
    rw [hred, enrich_starts, htake]
    have hstarts : (reFooDotBar false content).map Prod.fst =
        finditerFixed (fooDotBarAt (lowerStr content)) content.length 7 := by
      unfold reFooDotBar
      rw [List.map_map]
      exact List.map_id _ ▸ rfl
    rw [hstarts]
    have hmem := goFinditer_mem (fooDotBarAt (lowerStr content)) content.length 7
      (by omega)
      (fooDotBar_re_noOverlap (lowerStr content))
      (fun i hi => by rw [← hlen]; exact fooDotBarAt_le hi)
      (content.length + 1) 0 j (by omega)
    unfold finditerFixed
    rw [hmem]
    constructor
    · intro hj
      exact hj.2
    · intro hj
      exact ⟨Nat.zero_le j, hj⟩

/-- Witness for C2 (amended): on "foo.bar fooXbar", literal grep reports
a match start at 0 (the literal occurrence), and regex grep additionally
reports a match start at 8 (the wildcard occurrence "fooXbar"). -/
theorem C2_witness :
    (0 ∈ (iterGrepMatches reFooDotBar (lit "foo.bar fooXbar") (lit "foo.bar")
      false false 20).map GrepMatch.start) ∧
    (8 ∈ (iterGrepMatches reFooDotBar (lit "foo.bar fooXbar") (lit "foo.bar")
      true false 20).map GrepMatch.start) :=
  ⟨((C2_amended_literal_vs_regex (lit "foo.bar fooXbar") 20 (by decide)).1 0).mpr
    (by decide),
   ((C2_amended_literal_vs_regex (lit "foo.bar fooXbar") 20 (by decide)).2 8).mpr
    (by decide)⟩

/-! #### C4: exact-phrase versus filename-only ranking -/

theorem containsSub_iff (hay pat : List Char) :
    containsSub hay pat = true ↔ ∃ i, occursAtB hay pat i = true := by
  unfold containsSub
  rw [List.any_eq_true]
  constructor
  · rintro ⟨i, _, hocc⟩
    exact ⟨i, hocc⟩
  · rintro ⟨i, hocc⟩
    by_cases hne : pat = []
    · refine ⟨0, List.mem_range.mpr (by omega), ?_⟩
      rw [hne]
      simp [occursAtB]
    · refine ⟨i, List.mem_range.mpr ?_, hocc⟩
      have h1 := occursAtB_le hne hocc
      have h2 := List.length_pos.mpr hne
      omega

theorem containsSub_substring_iff (hay pat : List Char) :
    containsSub hay pat = true ↔ pat <:+: hay := by
  rw [containsSub_iff]
  constructor
  · rintro ⟨i, hocc⟩
    have heq : (hay.drop i).take pat.length = pat := beq_iff_eq.mp hocc
    have h1 : pat <+: hay.drop i := heq ▸ List.take_prefix pat.length (hay.drop i)
    exact h1.isInfix.trans (List.drop_suffix i hay).isInfix
  · rintro ⟨s, t, hst⟩
    refine ⟨s.length, ?_⟩
    unfold occursAtB
    apply beq_iff_eq.mpr
    rw [← hst, List.append_assoc, List.drop_left, List.take_left]

theorem splitWsGo_substring :
    ∀ (cs acc t : List Char), t ∈ splitWsGo cs acc →
      t <:+: (acc.reverse ++ cs) := by
  intro cs
  induction cs with
  | nil =>
    intro acc t ht
    unfold splitWsGo at ht
    by_cases hacc : acc = []
    · rw [if_pos hacc] at ht
      exact absurd ht (by simp)
    · rw [if_neg hacc] at ht
      have : t = acc.reverse := by simpa using ht
      rw [this, List.append_nil]
  | cons c cs ih =>
    intro acc t ht
    unfold splitWsGo at ht
    by_cases hsp : isSpaceChar c = true
    · rw [if_pos hsp] at ht
      by_cases hacc : acc = []
      · rw [if_pos hacc] at ht
        have h1 := ih [] t ht
        simp only [List.reverse_nil, List.nil_append] at h1
        rw [hacc]
        simp only [List.reverse_nil, List.nil_append]
        exact List.infix_cons h1
      · rw [if_neg hacc] at ht
        rcases List.mem_cons.mp ht with ht | ht
        · rw [ht]
          exact ((List.prefix_append acc.reverse (c :: cs)).isInfix)
        · have h1 := ih [] t ht
          simp only [List.reverse_nil, List.nil_append] at h1
          exact h1.trans ((List.suffix_cons c cs).isInfix.trans
            (List.suffix_append acc.reverse (c :: cs)).isInfix)
    · rw [if_neg hsp] at ht
      have h1 := ih (c :: acc) t ht
      have heq : (c :: acc).reverse ++ cs = acc.reverse ++ (c :: cs) := by
        rw [List.reverse_cons, List.append_assoc]
        rfl
      rwa [heq] at h1

theorem splitWsGo_nonspace :
    ∀ (cs acc t : List Char), t ∈ splitWsGo cs acc →
      (∀ c ∈ acc, isSpaceChar c = false) →
      ∀ c ∈ t, isSpaceChar c = false := by
  intro cs
  induction cs with
  | nil =>
    intro acc t ht hacc
    unfold splitWsGo at ht
    by_cases h : acc = []
    · rw [if_pos h] at ht
      exact absurd ht (by simp)
    · rw [if_neg h] at ht
      have : t = acc.reverse := by simpa using ht
      rw [this]
      intro c hc
      exact hacc c (List.mem_reverse.mp hc)
  | cons c cs ih =>
    intro acc t ht hacc
    unfold splitWsGo at ht
    by_cases hsp : isSpaceChar c = true
    · rw [if_pos hsp] at ht
      by_cases h : acc = []
      · rw [if_pos h] at ht
        exact ih [] t ht (by simp)
      · rw [if_neg h] at ht
        rcases List.mem_cons.mp ht with ht | ht
        · rw [ht]
          intro c2 hc2
          exact hacc c2 (List.mem_reverse.mp hc2)
        · exact ih [] t ht (by simp)
    · rw [if_neg hsp] at ht
      refine ih (c :: acc) t ht ?_
      intro c2 hc2
      rcases List.mem_cons.mp hc2 with hc2 | hc2
      · rw [hc2]
        cases hv : isSpaceChar c
        · rfl
        · exact absurd hv hsp
      · exact hacc c2 hc2

theorem map_eq_self_of_fix {f : Char → Char} :
    ∀ l : List Char, (∀ c ∈ l, f c = c) → l.map f = l := by
  intro l
  induction l with
  | nil => intro _; rfl
  | cons c cs ih =>
    intro h
    rw [List.map_cons, h c (List.mem_cons_self c cs),
      ih (fun c2 hc2 => h c2 (List.mem_cons_of_mem c hc2))]

theorem infix_stripPunct_of_nonspace (ql t : List Char)
    (ht : t <:+: stripPunct ql) (hw : ∀ c ∈ t, isSpaceChar c = false) :
    t <:+: ql := by
  obtain ⟨s, u, hsu⟩ := ht
  unfold stripPunct at hsu
  rw [List.append_assoc] at hsu
  obtain ⟨l1, l2, hql, hm1, hm2⟩ := List.append_eq_map.mp hsu
  obtain ⟨l3, l4, hl2, hm3, hm4⟩ := List.append_eq_map.mp hm2.symm
  have hfix : ∀ c ∈ l3,
      (fun c => if isWordChar c || isSpaceChar c then c else ' ') c = c := by
    intro c hc
    by_cases hcond : (isWordChar c || isSpaceChar c) = true
    · simp [hcond]
    · exfalso
      have hval : (fun c => if isWordChar c || isSpaceChar c then c else ' ') c =
          ' ' := by simp [hcond]
      have hft : (' ' : Char) ∈ t := by
        rw [← hm3]
        have hmem := List.mem_map_of_mem
          (fun c => if isWordChar c || isSpaceChar c then c else ' ') hc
        rwa [hval] at hmem
      have := hw ' ' hft
      simp [isSpaceChar] at this
  have ht3 : t = l3 := by
    rw [← hm3, map_eq_self_of_fix l3 hfix]
  refine ⟨l1, l4, ?_⟩
  rw [ht3, List.append_assoc, ← hl2]
  exact hql.symm

theorem queryWord_substring (ql t : List Char) (ht : t ∈ queryWordsOf ql) :
    t <:+: ql := by
  unfold queryWordsOf at ht
  obtain ⟨hmem, _⟩ := List.mem_filter.mp ht
  have hinf := splitWsGo_substring (stripPunct ql) [] t hmem
  simp only [List.reverse_nil, List.nil_append] at hinf
  have hns := splitWsGo_nonspace (stripPunct ql) [] t hmem (by simp)
  exact infix_stripPunct_of_nonspace ql t hinf hns

theorem mem_keyTerms_of_base (ql t : List Char)
    (ht : t ∈ (if queryWordsOf ql = [] then [ql] else queryWordsOf ql)) :
    t ∈ keyTermsOf ql := by
  unfold keyTermsOf
  rw [List.mem_dedup]
  exact List.mem_flatMap.mpr ⟨t, ht, List.mem_cons_self _ _⟩

theorem exists_keyTerm_substring (ql : List Char) :
    ∃ t ∈ keyTermsOf ql, t <:+: ql := by
  by_cases hqw : queryWordsOf ql = []
  · refine ⟨ql, mem_keyTerms_of_base ql ql (by rw [if_pos hqw]; simp), ?_⟩
    exact List.infix_rfl
  · obtain ⟨t0, ht0⟩ := List.exists_mem_of_ne_nil _ hqw
    refine ⟨t0, mem_keyTerms_of_base ql t0 (by rw [if_neg hqw]; exact ht0), ?_⟩
    exact queryWord_substring ql t0 ht0

theorem wordBoundary_contains (s t : List Char)
    (h : wordBoundarySearch s t = true) : containsSub s t = true := by
  unfold wordBoundarySearch at h
  obtain ⟨i, hi, hp⟩ := List.any_eq_true.mp h
  simp only [Bool.and_eq_true] at hp
  unfold containsSub
  exact List.any_eq_true.mpr ⟨i, hi, hp.1.1⟩

theorem scoreDoc_exact_phrase (ql : List Char) (terms : List (List Char))
    (d : DocRecord)
    (hterm : ∃ t ∈ terms, containsSub (lowerStr d.content) t = true)
    (hphrase : containsSub (lowerStr d.content) ql = true) :
    ∃ s, scoreDoc ql terms d = some s ∧ 20 ≤ s := by
  have hkt : hasKeyTermB terms (lowerStr d.content) (lowerStr d.filename) = true := by
    obtain ⟨t, ht, hc⟩ := hterm
    exact List.any_eq_true.mpr ⟨t, ht, by rw [hc]; rfl⟩
  simp only [scoreDoc, hkt, if_true, hphrase]
  refine ⟨_, rfl, ?_⟩
  by_cases hpdf : ((lit ".pdf").isSuffixOf (lowerStr d.filename) ∧
      0 + 20 + 5 * terms.countP (fun t => wordBoundarySearch (lowerStr d.content) t) +
        10 * terms.countP (fun t => containsSub (lowerStr d.filename) t) +
        3 * terms.countP (fun t => containsSub (lowerStr d.workbook_name) t) > 0)
  · rw [if_pos hpdf]
    omega
  · rw [if_neg hpdf]
    omega

theorem scoreDoc_filename_only (ql : List Char) (terms : List (List Char))
    (d : DocRecord)
    (hf : terms.countP (fun t => containsSub (lowerStr d.filename) t) = 1)
    (hc : ∀ t ∈ terms, containsSub (lowerStr d.content) t = false)
    (hq : containsSub (lowerStr d.content) ql = false)
    (hw : terms.countP (fun t => containsSub (lowerStr d.workbook_name) t) = 0) :
    ∃ s, scoreDoc ql terms d = some s ∧ 10 ≤ s ∧ s ≤ 12 := by
  have hkt : hasKeyTermB terms (lowerStr d.content) (lowerStr d.filename) = true := by
    obtain ⟨t, ht, hp⟩ := List.countP_pos_iff.mp (by omega : 0 <
      terms.countP (fun t => containsSub (lowerStr d.filename) t))
    exact List.any_eq_true.mpr ⟨t, ht, by rw [hp]; simp⟩
  have hany : terms.any (fun t => containsSub (lowerStr d.content) t) = false := by
    rw [Bool.eq_false_iff]
    intro hcon
    obtain ⟨t, ht, hp⟩ := List.any_eq_true.mp hcon
    rw [hc t ht] at hp
    exact absurd hp (by simp)
  have hwb : terms.countP (fun t => wordBoundarySearch (lowerStr d.content) t) = 0 := by
    rw [List.countP_eq_zero]
    intro t ht
    intro hcon
    have := wordBoundary_contains (lowerStr d.content) t hcon
    rw [hc t ht] at this
    exact absurd this (by simp)
  simp only [scoreDoc, hkt, if_true, hq, Bool.false_eq_true, if_false, hany,
    hwb, hf, hw]
  refine ⟨_, rfl, ?_⟩
  by_cases hpdf : ((lit ".pdf").isSuffixOf (lowerStr d.filename) ∧
      0 + 0 + 5 * 0 + 10 * 1 + 3 * 0 > 0)
  · rw [if_pos hpdf]
    omega
  · rw [if_neg hpdf]
    omega

theorem selectDocs_two_strict (query : List Char) (docs : List DocRecord)
    (sA sB : Nat) (A B : DocRecord)
    (hmd : matchingDocs (lowerStr query) (keyTermsOf (lowerStr query)) docs =
        [(sA, A), (sB, B)] ∨
      matchingDocs (lowerStr query) (keyTermsOf (lowerStr query)) docs =
        [(sB, B), (sA, A)])
    (hlt : sB < sA) (hth : 10 * sB < 9 * sA) :
    selectDocs query docs = [(sA, A)] := by
  have hsort : sortedMatching query docs = [(sA, A), (sB, B)] := by
    unfold sortedMatching
    rcases hmd with hmd | hmd <;> rw [hmd]
    · simp only [List.insertionSort, List.orderedInsert]
      rw [if_pos (by omega : ((sB, B) : Nat × DocRecord).1 ≤ ((sA, A) : Nat × DocRecord).1)]
    · simp only [List.insertionSort, List.orderedInsert]
      rw [if_neg (by omega : ¬ ((sA, A) : Nat × DocRecord).1 ≤ ((sB, B) : Nat × DocRecord).1)]
  unfold selectDocs
  rw [hsort]
  have h1 : (10 * sA ≥ 9 * sA) := by omega
  have h2 : ¬ (10 * sB ≥ 9 * sA) := by omega
  simp only [List.filter_cons, List.filter_nil, decide_eq_true_eq, h1, h2,
    if_true, if_false]
  simp

/-- C4 counterexample: for the query "alpha beta", the document
`c4docA` contains the exact query phrase while `c4docB` matches only
through its filename (both terms) — yet the filename-only document scores
22 against 20 and is returned first. -/
theorem C4_counterexample :
    containsSub (lowerStr c4docA.content) (lowerStr (lit "alpha beta")) = true ∧
    (∀ t ∈ keyTermsOf (lowerStr (lit "alpha beta")),
      containsSub (lowerStr c4docB.content) t = false) ∧
    scoreDoc (lowerStr (lit "alpha beta")) (keyTermsOf (lowerStr (lit "alpha beta")))
      c4docA = some 20 ∧
    scoreDoc (lowerStr (lit "alpha beta")) (keyTermsOf (lowerStr (lit "alpha beta")))
      c4docB = some 22 ∧
    (selectDocs (lit "alpha beta") [c4docA, c4docB]).map
      (fun sd => (sd.1, sd.2.filename)) =
      [(22, lit "alpha-beta.pdf"), (20, lit "doc1.txt")] := by
  refine ⟨by decide, by decide, by decide, by decide, by decide⟩

/-- C4 (amended): for every query and two-document corpus where one
document's content contains the exact query phrase and the other matches
the query only via a single key term occurring in its filename (no terms
in its content or workbook name), the exact-phrase document scores
strictly higher and is the first (and only) document selected for the
formatted output. -/
theorem C4_amended_exact_phrase_beats_single_filename_match
    (query : List Char) (docs : List DocRecord) (A B : DocRecord)
    (hdocs : docs = [A, B] ∨ docs = [B, A])
    (hA : containsSub (lowerStr A.content) (lowerStr query) = true)
    (hBc : ∀ t ∈ keyTermsOf (lowerStr query),
      containsSub (lowerStr B.content) t = false)
    (hBf : (keyTermsOf (lowerStr query)).countP
      (fun t => containsSub (lowerStr B.filename) t) = 1)
    (hBw : (keyTermsOf (lowerStr query)).countP
      (fun t => containsSub (lowerStr B.workbook_name) t) = 0) :
    ∃ sA sB,
      scoreDoc (lowerStr query) (keyTermsOf (lowerStr query)) A = some sA ∧
      scoreDoc (lowerStr query) (keyTermsOf (lowerStr query)) B = some sB ∧
      sB < sA ∧
      selectDocs query docs = [(sA, A)] := by
  obtain ⟨t0, ht0, hinf⟩ := exists_keyTerm_substring (lowerStr query)
  have htermA : ∃ t ∈ keyTermsOf (lowerStr query),
      containsSub (lowerStr A.content) t = true := by
    refine ⟨t0, ht0, ?_⟩
    rw [containsSub_substring_iff]
    exact hinf.trans ((containsSub_substring_iff _ _).mp hA)
  have hBq : containsSub (lowerStr B.content) (lowerStr query) = false := by
    cases hv : containsSub (lowerStr B.content) (lowerStr query)
    · rfl
    · exfalso
      have : containsSub (lowerStr B.content) t0 = true := by
        rw [containsSub_substring_iff]
        exact hinf.trans ((containsSub_substring_iff _ _).mp hv)
      rw [hBc t0 ht0] at this
      exact absurd this (by simp)
  obtain ⟨sA, hsA, hsA20⟩ := scoreDoc_exact_phrase (lowerStr query)
    (keyTermsOf (lowerStr query)) A htermA hA
  obtain ⟨sB, hsB, hsB10, hsB12⟩ := scoreDoc_filename_only (lowerStr query)
    (keyTermsOf (lowerStr query)) B hBf hBc hBq hBw
  have hmA : (match scoreDoc (lowerStr query) (keyTermsOf (lowerStr query)) A with
      | some s => if s ≥ 8 then some (s, A) else none
      | none => none) = some (sA, A) := by
    rw [hsA]
    simp only
    rw [if_pos (by omega)]
  have hmB : (match scoreDoc (lowerStr query) (keyTermsOf (lowerStr query)) B with
      | some s => if s ≥ 8 then some (s, B) else none
      | none => none) = some (sB, B) := by
    rw [hsB]
    simp only
    rw [if_pos (by omega)]
  have hmd : matchingDocs (lowerStr query) (keyTermsOf (lowerStr query)) docs =
      [(sA, A), (sB, B)] ∨
    matchingDocs (lowerStr query) (keyTermsOf (lowerStr query)) docs =
      [(sB, B), (sA, A)] := by
    rcases hdocs with hdocs | hdocs <;> rw [hdocs]
    · left
      unfold matchingDocs
      rw [List.filterMap_cons, hmA, List.filterMap_cons, hmB, List.filterMap_nil]
    · right
      unfold matchingDocs
      rw [List.filterMap_cons, hmB, List.filterMap_cons, hmA, List.filterMap_nil]
  exact ⟨sA, sB, hsA, hsB, by omega,
    selectDocs_two_strict query docs sA sB A B hmd (by omega) (by omega)⟩

/-- Witness for C4 (amended): a concrete instance where the exact-phrase
document wins: query "orbit velocity", one document containing the phrase,
the other matching only via "orbit" in its filename. -/
theorem C4_witness :
    ∃ sA sB,
      scoreDoc (lowerStr (lit "orbit velocity"))
        (keyTermsOf (lowerStr (lit "orbit velocity"))) c4winA = some sA ∧
      scoreDoc (lowerStr (lit "orbit velocity"))
        (keyTermsOf (lowerStr (lit "orbit velocity"))) c4winB = some sB ∧
      sB < sA ∧
      selectDocs (lit "orbit velocity") [c4winA, c4winB] = [(sA, c4winA)] :=
  C4_amended_exact_phrase_beats_single_filename_match (lit "orbit velocity")
    [c4winA, c4winB] c4winA c4winB (Or.inl rfl) (by decide) (by decide)
    (by decide) (by decide)

end WorkbookRag
